import Mathlib

/-!
Shallow embedding of the befrust gate-level logic simulator.

The definitions below are translated from the Rust source:
  * `src/lib.rs`   — `Signal`, `PinState`, `BusValue`, the signal algebra
  * `src/graph.rs` — `GraphImpl`, `Node`, the tick loop and `run`
  * `src/gate.rs`  — the primitive gate parts and `BusBuffer`
  * `src/ic.rs`    — `TFlipFlop` and the `IcCY7C199` static RAM

Machine integers (`usize`, `u8`) are modelled as `Nat`; in the places the
source relies on wrapping (`data as u8`) an explicit `% 256` appears.
Fallible operations (`panic!`, `assert!`, `expect`) are modelled by
`Option`, with `none` standing for an abort.
-/

namespace Befrust

/-- The logical value for a given node, pin, etc. (`Signal` in `src/lib.rs`). -/
inductive Signal where
  /-- No signal present, high impedance, etc. -/
  | Off
  /-- Logical Low -/
  | Low
  /-- Logical High -/
  | High
  /-- Uninitialized, indeterminate, or other problematic states -/
  | Error
deriving DecidableEq, Repr, Fintype

namespace Signal

/-- `Signal::is_lowish`: treat `Off` and `Low` as the same value. -/
def is_lowish : Signal → Bool
  | .Low => true
  | .Off => true
  | _ => false

/-- `Signal::is_high`. -/
def is_high : Signal → Bool
  | .High => true
  | _ => false

/-- `impl Not for Signal` (`src/lib.rs`). -/
def not : Signal → Signal
  | .High => .Low
  | .Low => .High
  | .Off => .Off
  | _ => .Error

/-- `impl BitAnd for Signal` (`src/lib.rs`): `Error` absorbing, `Off & Off = Off`,
`High & High = High`, otherwise `Low`. -/
def and : Signal → Signal → Signal
  | .Error, _ => .Error
  | _, .Error => .Error
  | .Off, .Off => .Off
  | .High, .High => .High
  | _, _ => .Low

/-- `impl BitOr for Signal` (`src/lib.rs`): `Error` absorbing, `Off` is the
identity, `Low | Low = Low`, otherwise `High`. -/
def or : Signal → Signal → Signal
  | .Error, _ => .Error
  | _, .Error => .Error
  | .Off, a => a
  | a, .Off => a
  | .Low, .Low => .Low
  | _, _ => .High

/-- `impl BitXor for Signal` (`src/lib.rs`): the arms are, in order,
`either_are!(Error) => Error`, `both_are!(Off) => Off`,
`other_is!(High, a) if a != High => High`, `_ => Low`. -/
def xor : Signal → Signal → Signal
  | .Error, _ => .Error
  | _, .Error => .Error
  | .Off, .Off => .Off
  | .High, .High => .Low
  | .High, _ => .High
  | _, .High => .High
  | _, _ => .Low

end Signal

/-- The connection state and signal for a pin (`PinState` in `src/lib.rs`). -/
inductive PinState where
  /-- High impedance, acting as neither an input nor an output. -/
  | HiZ
  /-- An input receives its signal from the connected Node. -/
  | Input (s : Signal)
  /-- An output places its signal onto the connected Node. -/
  | Output (s : Signal)
deriving DecidableEq, Repr, Fintype

namespace PinState

/-- `PinState::INPUT`: a default input, `Off` until it gets a value from the node. -/
def INPUT : PinState := .Input .Off

/-- `PinState::OUTPUT`: a default output, `Error` until the part's updater runs. -/
def OUTPUT : PinState := .Output .Error

/-- `impl ToSignal for PinState`: `HiZ` reads as `Off`, otherwise the inner signal. -/
def sig : PinState → Signal
  | .HiZ => .Off
  | .Input s => s
  | .Output s => s

/-- `PinState::is_lowish`. -/
def is_lowish (p : PinState) : Bool := p.sig.is_lowish

/-- `PinState::is_high`. -/
def is_high (p : PinState) : Bool := p.sig.is_high

/-- `impl Not for PinState`: logical not of the pin's signal. -/
def not (p : PinState) : Signal := p.sig.not

end PinState

/-- A collection of signals on a bus (`BusValue` in `src/lib.rs`). -/
structure BusValue where
  /-- Bits are 1 iff the corresponding `Signal` is `High`. -/
  val : Nat
  /-- Bit mask for signals in an `Error` state. -/
  error : Nat
deriving DecidableEq, Repr

namespace BusValue

/-- `BusValue::new_val`. -/
def new_val (val : Nat) : BusValue := ⟨val, 0⟩

/-- `BusValue::new_error`. -/
def new_error (error : Nat) : BusValue := ⟨0, error⟩

/-- `BusValue::unwrap`: the value if the error mask is empty, otherwise a panic
(modelled as `none`). -/
def unwrap (b : BusValue) : Option Nat :=
  if b.error = 0 then some b.val else none

/-- `BusValue::sig`: the `Signal` for the given bit position. -/
def sig (b : BusValue) (i : Nat) : Signal :=
  if (b.error >>> i) &&& 1 = 1 then .Error
  else if (b.val >>> i) &&& 1 = 1 then .High
  else .Low

end BusValue

namespace Signal

/-- `impl ToValue for Signal`: a single-bit `BusValue` for a `Signal`. -/
def val : Signal → BusValue
  | .Error => BusValue.new_error 1
  | .High => BusValue.new_val 1
  | _ => BusValue.new_val 0

end Signal

/-- The accumulation step of `impl ToValue for T: Iterator` in `src/lib.rs`:
`bus_val.val += sig_val.val << i; bus_val.error += sig_val.error << i`. -/
def busStep (bv : BusValue) (p : Nat × Signal) : BusValue :=
  let sig_val := p.2.val
  { val := bv.val + sig_val.val <<< p.1, error := bv.error + sig_val.error <<< p.1 }

/-- `impl ToValue for T: Iterator` (`src/lib.rs`): fold the enumerated signals
least-significant first. (The source's `assert!(i < usize::BITS)` cannot
overflow a `Nat`; claims carry the width bound as a hypothesis.) -/
def listVal (l : List Signal) : BusValue :=
  l.enum.foldl busStep ⟨0, 0⟩

/-- `io_pins.iter().val()` in the source goes through `ToSignal` first. -/
def pinsVal (l : List PinState) : BusValue :=
  listVal (l.map PinState.sig)

/-- Recursive presentation of `listVal` used for reasoning. -/
def valFrom : Nat → List Signal → BusValue
  | _, [] => ⟨0, 0⟩
  | i, s :: rest =>
    let sv := s.val
    let r := valFrom (i + 1) rest
    ⟨sv.val <<< i + r.val, sv.error <<< i + r.error⟩

theorem foldl_busStep_enumFrom (l : List Signal) : ∀ (k : Nat) (b : BusValue),
    (List.enumFrom k l).foldl busStep b =
      ⟨b.val + (valFrom k l).val, b.error + (valFrom k l).error⟩ := by
  induction l with
  | nil => intro k b; simp [valFrom]
  | cons s rest ih =>
    intro k b
    simp only [List.enumFrom, List.foldl_cons, valFrom]
    rw [ih]
    simp [busStep]
    omega

theorem listVal_eq_valFrom (l : List Signal) : listVal l = valFrom 0 l := by
  have h := foldl_busStep_enumFrom l 0 ⟨0, 0⟩
  simp only [listVal, List.enum]
  rw [h]
  simp

theorem valFrom_succ (k : Nat) (l : List Signal) :
    valFrom (k + 1) l = ⟨2 * (valFrom k l).val, 2 * (valFrom k l).error⟩ := by
  induction l generalizing k with
  | nil => simp [valFrom]
  | cons s rest ih =>
    simp only [valFrom, ih (k + 1)]
    have h1 : (Signal.val s).val <<< (k + 1) = 2 * ((Signal.val s).val <<< k) := by
      simp [Nat.shiftLeft_eq]; ring
    have h2 : (Signal.val s).error <<< (k + 1) = 2 * ((Signal.val s).error <<< k) := by
      simp [Nat.shiftLeft_eq]; ring
    rw [ih k] at *
    simp only [h1, h2, BusValue.mk.injEq]
    omega

/-- bit 0 of a single-signal contribution. -/
theorem sigval_val_le (s : Signal) : (Signal.val s).val ≤ 1 := by
  cases s <;> simp [Signal.val, BusValue.new_val, BusValue.new_error]

theorem sigval_error_le (s : Signal) : (Signal.val s).error ≤ 1 := by
  cases s <;> simp [Signal.val, BusValue.new_val, BusValue.new_error]

/-- Bit `i` of the accumulated `val` is the `High`-indicator of signal `i`. -/
theorem valFrom_val_bit (l : List Signal) : ∀ i : Nat, i < l.length →
    ((valFrom 0 l).val >>> i) % 2 = (if l.getD i .Off = .High then 1 else 0) := by
  induction l with
  | nil => intro i h; simp at h
  | cons s rest ih =>
    intro i h
    rw [valFrom, valFrom_succ]
    cases i with
    | zero =>
      simp only [Nat.shiftRight_zero, List.getD_cons_zero]
      have := sigval_val_le s
      have hs : (Signal.val s).val <<< 0 = (Signal.val s).val := by simp
      rw [hs]
      cases s <;> simp [Signal.val, BusValue.new_val, BusValue.new_error]
    | succ j =>
      have hj : j < rest.length := by simpa using h
      have hrec := ih j hj
      have hs : (Signal.val s).val <<< 0 = (Signal.val s).val := by simp
      rw [hs]
      have hle := sigval_val_le s
      simp only [List.getD_cons_succ]
      rw [Nat.shiftRight_eq_div_pow] at *
      have h2 : ((Signal.val s).val + 2 * (valFrom 0 rest).val) / 2 ^ (j + 1)
          = (valFrom 0 rest).val / 2 ^ j := by
        rw [pow_succ, mul_comm (2 ^ j) 2, ← Nat.div_div_eq_div_mul]
        congr 1
        omega
      rw [h2, hrec]

/-- Bit `i` of the accumulated `error` mask is the `Error`-indicator of signal `i`. -/
theorem valFrom_error_bit (l : List Signal) : ∀ i : Nat, i < l.length →
    ((valFrom 0 l).error >>> i) % 2 = (if l.getD i .Off = .Error then 1 else 0) := by
  induction l with
  | nil => intro i h; simp at h
  | cons s rest ih =>
    intro i h
    rw [valFrom, valFrom_succ]
    cases i with
    | zero =>
      simp only [Nat.shiftRight_zero, List.getD_cons_zero]
      have := sigval_error_le s
      have hs : (Signal.val s).error <<< 0 = (Signal.val s).error := by simp
      rw [hs]
      cases s <;> simp [Signal.val, BusValue.new_val, BusValue.new_error]
    | succ j =>
      have hj : j < rest.length := by simpa using h
      have hrec := ih j hj
      have hs : (Signal.val s).error <<< 0 = (Signal.val s).error := by simp
      rw [hs]
      have hle := sigval_error_le s
      simp only [List.getD_cons_succ]
      rw [Nat.shiftRight_eq_div_pow] at *
      have h2 : ((Signal.val s).error + 2 * (valFrom 0 rest).error) / 2 ^ (j + 1)
          = (valFrom 0 rest).error / 2 ^ j := by
        rw [pow_succ, mul_comm (2 ^ j) 2, ← Nat.div_div_eq_div_mul]
        congr 1
        omega
      rw [h2, hrec]

/-- A set of mutually connected pins (`Node` in `src/graph.rs`). The
`BTreeSet<PinId>` is modelled as a strictly sorted `List Nat`; the default
signal is `Error` (`impl Default for Signal`). -/
structure Node where
  pin_ids : List Nat
  signal : Signal
deriving DecidableEq, Repr

/-- `Node::new`: a singleton node with the default (`Error`) signal. -/
def Node.new (pin_id : Nat) : Node := ⟨[pin_id], .Error⟩

/-- `BTreeSet::insert` on a sorted duplicate-free list. -/
def setInsert (x : Nat) : List Nat → List Nat
  | [] => [x]
  | y :: ys =>
    if x < y then x :: y :: ys
    else if x = y then y :: ys
    else y :: setInsert x ys

/-- `BTreeMap::get` on a sorted association list. -/
def mapLookup (k : Nat) : List (Nat × Node) → Option Node
  | [] => none
  | (k', v) :: rest => if k = k' then some v else mapLookup k rest

/-- `BTreeMap::remove` (the remaining map) on a sorted association list. -/
def mapErase (k : Nat) : List (Nat × Node) → List (Nat × Node)
  | [] => []
  | (k', v) :: rest => if k = k' then rest else (k', v) :: mapErase k rest

/-- `BTreeMap::insert` on a sorted association list (replaces an existing key). -/
def mapInsert (k : Nat) (v : Node) : List (Nat × Node) → List (Nat × Node)
  | [] => [(k, v)]
  | (k', v') :: rest =>
    if k < k' then (k, v) :: (k', v') :: rest
    else if k = k' then (k, v) :: rest
    else (k', v') :: mapInsert k v rest

/-- One registered part: the updater closure together with its pin range
(`parts: Vec<(Part, Range<usize>)>` in `src/graph.rs`). A Rust `FnMut`
closure may carry hidden mutable state (the RAM part does); a deterministic
`FnMut` is equivalently a pure function of the full history of slices it has
been called on, so the updater takes that history as an extra argument and
`history` records it. The range's `end` is called `stop` (`end` is reserved). -/
structure PartEntry where
  updater : List (List PinState) → List PinState → List PinState
  history : List (List PinState)
  start : Nat
  stop : Nat

/-- Internal data structures of the compute graph (`GraphImpl` in
`src/graph.rs`). `pin_names` is debug-only and omitted. -/
structure GraphImpl where
  pin_states : List PinState
  nodes : List (Nat × Node)
  next_node : Nat
  pin_nodes : List Nat
  parts : List PartEntry

namespace GraphImpl

/-- `Graph::new`: the empty graph. -/
def new : GraphImpl := ⟨[], [], 0, [], []⟩

/-- `GraphImpl::new_pin`: append the state, allocate a fresh singleton node,
record the reverse lookup. Returns the graph; the fresh pin id is
`g.pin_states.length` before the call. -/
def new_pin (g : GraphImpl) (state : PinState) : GraphImpl :=
  let id := g.pin_states.length
  let node_id := g.next_node
  { g with
    pin_states := g.pin_states ++ [state]
    nodes := mapInsert node_id (Node.new id) g.nodes
    next_node := g.next_node + 1
    pin_nodes := g.pin_nodes ++ [node_id] }

/-- `Graph::new_pins`: a contiguous block of pins. -/
def new_pins (g : GraphImpl) (states : List PinState) : GraphImpl :=
  states.foldl new_pin g

/-- `Graph::new_input` creates a pin in `Input(Off)` state. -/
def new_input (g : GraphImpl) : GraphImpl := g.new_pin PinState.INPUT

/-- `Graph::new_output` creates a pin in `Output(sig)` state. -/
def new_output (g : GraphImpl) (s : Signal) : GraphImpl := g.new_pin (.Output s)

/-- `Graph::new_part`: record the updater with the half-open range of the
pins created for it, then create those pins. -/
def new_part (g : GraphImpl) (states : List PinState)
    (updater : List (List PinState) → List PinState → List PinState) : GraphImpl :=
  let start := g.pin_states.length
  let stop := start + states.length
  let g1 := { g with
    parts := g.parts ++ [({ updater := updater, history := [], start := start, stop := stop } : PartEntry)] }
  g1.new_pins states

/-- `GraphImpl::connect`: merge the node containing `b` into the node
containing `a`. `none` models a panic — either the double-connect panic
(same node) or a failed `expect` on a missing node. -/
def connect (g : GraphImpl) (a b : Nat) : Option GraphImpl :=
  let a_node_id := g.pin_nodes.getD a 0
  let b_node_id := g.pin_nodes.getD b 0
  if a_node_id = b_node_id then none
  else
    match mapLookup b_node_id g.nodes with
    | none => none
    | some b_node =>
      let nodes1 := mapErase b_node_id g.nodes
      match mapLookup a_node_id nodes1 with
      | none => none
      | some a_node =>
        let merged : Node :=
          { a_node with pin_ids := b_node.pin_ids.foldl (fun s p => setInsert p s) a_node.pin_ids }
        some { g with
          nodes := mapInsert a_node_id merged nodes1
          pin_nodes := b_node.pin_ids.foldl (fun pn p => pn.set p a_node_id) g.pin_nodes }

/-- `connect` in a context where the source would have panicked on failure:
total for building concrete circuits, the accompanying lemmas show each use
returns `some`. -/
def connectD (g : GraphImpl) (a b : Nat) : GraphImpl :=
  (g.connect a b).getD g

end GraphImpl

/-- The inner loop of `GraphImpl::update_nodes`: scan one member pin,
carrying `(new_signal, out_count)`. -/
def resolveStep (ps : List PinState) (acc : Signal × Nat) (pin : Nat) : Signal × Nat :=
  match ps.getD pin .HiZ with
  | .HiZ => acc
  | .Input _ => acc
  | .Output signal =>
    if acc.2 > 0 then (.Error, acc.2 + 1)
    else (signal, acc.2 + 1)

/-- The signal `GraphImpl::update_nodes` resolves for one node: the scan
starts from the node's cached `node.signal` with `out_count = 0`. -/
def resolveNode (ps : List PinState) (nd : Node) : Signal :=
  (nd.pin_ids.foldl (resolveStep ps) (nd.signal, 0)).1

/-- Write-back loop of `GraphImpl::update_nodes`: every `Input(_)` member of
the node is overwritten with the new signal. -/
def writeInputs (ps : List PinState) (pins : List Nat) (s : Signal) : List PinState :=
  match pins with
  | [] => ps
  | p :: rest =>
    let ps1 :=
      match ps.getD p .HiZ with
      | .Input _ => ps.set p (.Input s)
      | _ => ps
    writeInputs ps1 rest s

/-- `GraphImpl::update_nodes`, node by node in `BTreeMap` key order: if the
resolved signal differs from the cached one, bump the counter, overwrite the
cached signal and write it into every input member. -/
def updateNodesGo : List (Nat × Node) → List PinState → Nat →
    List (Nat × Node) × List PinState × Nat
  | [], ps, c => ([], ps, c)
  | (id, nd) :: rest, ps, c =>
    let new_signal := resolveNode ps nd
    if new_signal ≠ nd.signal then
      let ps' := writeInputs ps nd.pin_ids new_signal
      let r := updateNodesGo rest ps' (c + 1)
      ((id, { nd with signal := new_signal }) :: r.1, r.2)
    else
      let r := updateNodesGo rest ps c
      ((id, nd) :: r.1, r.2)

namespace GraphImpl

/-- `GraphImpl::update_nodes`: returns the updated graph and the number of
nodes whose signal changed. -/
def update_nodes (g : GraphImpl) : GraphImpl × Nat :=
  let r := updateNodesGo g.nodes g.pin_states 0
  ({ g with nodes := r.1, pin_states := r.2.1 }, r.2.2)

end GraphImpl

/-- Element-wise write of a computed slice back into the pin-state store;
like writes through a Rust `&mut [PinState]` it cannot change the length. -/
def writeSlice (ps : List PinState) (start : Nat) (vals : List PinState) : List PinState :=
  vals.enum.foldl (fun acc iv => acc.set (start + iv.1) iv.2) ps

namespace GraphImpl

/-- `GraphImpl::update_parts`: invoke each part's updater on the slice of
`pin_states` in its range, in creation order. The slice the updater saw is
appended to its history (the hidden `FnMut` state advancing). -/
def update_parts (g : GraphImpl) : GraphImpl :=
  let r := g.parts.foldl
    (fun (acc : List PinState × List PartEntry) pe =>
      let slice := (acc.1.drop pe.start).take (pe.stop - pe.start)
      let out := (pe.updater pe.history slice).take (pe.stop - pe.start)
      (writeSlice acc.1 pe.start out, acc.2 ++ [{ pe with history := pe.history ++ [slice] }]))
    (g.pin_states, [])
  { g with pin_states := r.1, parts := r.2 }

/-- `Graph::tick`: a full pass of updating parts then nodes. -/
def tick (g : GraphImpl) : GraphImpl × Nat :=
  g.update_parts.update_nodes

/-- `Graph::get_state`. -/
def get_state (g : GraphImpl) (pin : Nat) : PinState := g.pin_states.getD pin .HiZ

/-- `Graph::get_signal`. -/
def get_signal (g : GraphImpl) (pin : Nat) : Signal := (g.get_state pin).sig

end GraphImpl

/-- Update and cycle information for a run of the graph (`RunStats`). -/
structure RunStats where
  ticks : Nat
  updates : Nat
  cycle : Nat
deriving DecidableEq, Repr

/-- What `Graph::run` hashes each tick: the full pin-state sequence and the
nodes. The source folds this through a 64-bit `DefaultHasher`; the
fingerprint is modelled as the hashed data itself (a collision-free hash). -/
abbrev Fingerprint := List PinState × List (Nat × Node)

/-- `BTreeMap::insert`'s returned previous value for the fingerprint map. -/
def seenLookup : List (Fingerprint × Nat) → Fingerprint → Option Nat
  | [], _ => none
  | (f, t) :: rest, fp => if fp = f then some t else seenLookup rest fp

namespace GraphImpl

/-- The data `Graph::run` fingerprints after each tick. -/
def fingerprint (g : GraphImpl) : Fingerprint := (g.pin_states, g.nodes)

end GraphImpl

/-- The loop of `Graph::run`, with explicit fuel: `none` means the fuel ran
out before the loop broke. Each pass calls `tick`; zero node updates breaks
with the stats so far (`cycle` still 0); otherwise ticks and updates are
accumulated and the fingerprint is looked up — a repeat breaks with
`cycle = ticks - previous_tick - 1`, a fresh print is recorded. -/
def runGo : Nat → GraphImpl → RunStats → List (Fingerprint × Nat) → Option (RunStats × GraphImpl)
  | 0, _, _, _ => none
  | fuel + 1, g, stats, seen =>
    let tr := g.tick
    if tr.2 = 0 then some (stats, tr.1)
    else
      let stats1 : RunStats :=
        { stats with ticks := stats.ticks + 1, updates := stats.updates + tr.2 }
      let fp := tr.1.fingerprint
      match seenLookup seen fp with
      | some tk => some ({ stats1 with cycle := stats1.ticks - tk - 1 }, tr.1)
      | none => runGo fuel tr.1 stats1 ((fp, stats1.ticks) :: seen)

namespace GraphImpl

/-- `Graph::run`, starting from `ticks = 1, updates = 0, cycle = 0` and an
empty fingerprint map. -/
def run (fuel : Nat) (g : GraphImpl) : Option (RunStats × GraphImpl) :=
  runGo fuel g ⟨1, 0, 0⟩ []

end GraphImpl

/-! ## Primitive parts (`src/gate.rs`, `src/ic.rs`) -/

/-- The updater of `not_gate`: `pins[OUTPUT] = Output(!pins[INPUT])` with
`INPUT = 0`, `OUTPUT = 1`. The first argument is the (ignored) call history:
gate closures carry no hidden state. -/
def notGateUpdater : List (List PinState) → List PinState → List PinState :=
  fun _ pins => pins.set 1 (.Output (pins.getD 0 .HiZ).not)

/-- `not_gate`: a `UnaryGate` part with pins `[Input(Off), Output(Error)]`. -/
def not_gate (g : GraphImpl) : GraphImpl :=
  g.new_part [PinState.INPUT, PinState.OUTPUT] notGateUpdater

/-- The updater of `BusBuffer::new` (`src/gate.rs`): split the slice into the
first `width` outputs and the next `width` inputs; each output becomes `HiZ`
for a `HiZ` input, `Output(sig)` for an `Input(sig)`, `Output(Error)`
otherwise. -/
def busBufferUpdater (width : Nat) : List (List PinState) → List PinState → List PinState :=
  fun _ pins =>
    let outs := pins.take width
    let ins := pins.drop width
    (outs.zip ins).map
      (fun qa =>
        match qa.2 with
        | PinState.HiZ => PinState.HiZ
        | PinState.Input s => PinState.Output s
        | _ => PinState.Output Signal.Error) ++ ins

namespace BusBuffer

/-- `BusBuffer::new`: `2 * width` pins, the first `width` outputs and the
next `width` inputs. -/
def new (g : GraphImpl) (width : Nat) : GraphImpl :=
  g.new_part (List.replicate width PinState.OUTPUT ++ List.replicate width PinState.INPUT)
    (busBufferUpdater width)

end BusBuffer

namespace TFlipFlop

/-- Toggle pin index -/
def TOGGLE : Nat := 0

/-- Set pin index -/
def SET : Nat := 1

/-- Reset pin index -/
def RESET : Nat := 2

/-- Output pin index -/
def OUTPUT : Nat := 3

/-- Inverted output pin index -/
def OUT_INV : Nat := 4

/-- Previous toggle state index (internal, for edge detection) -/
def TOGGLE_PREV : Nat := 5

/-- The updater of `TFlipFlop::new` (`src/ic.rs`): compute the next `Q`,
drive `Q` and `Q̄`, and store the current toggle pin state into the
`TOGGLE_PREV` memory pin. -/
def updater : List (List PinState) → List PinState → List PinState :=
  fun _ pins =>
    let new_q :=
      if (pins.getD RESET .HiZ).is_high then Signal.Low
      else if (pins.getD SET .HiZ).is_high then Signal.High
      else if (pins.getD TOGGLE .HiZ).is_high && (pins.getD TOGGLE_PREV .HiZ).is_lowish then
        (pins.getD OUT_INV .HiZ).sig
      else (pins.getD OUTPUT .HiZ).sig
    ((pins.set OUTPUT (.Output new_q)).set OUT_INV (.Output new_q.not)).set TOGGLE_PREV
      (pins.getD TOGGLE .HiZ)

/-- `TFlipFlop::new`: the part with pins
`[Toggle, Set, Reset, Q = Output(Low), Q̄ = Output(High), T_prev]`. -/
def new (g : GraphImpl) : GraphImpl :=
  g.new_part
    [PinState.INPUT, PinState.INPUT, PinState.INPUT,
     .Output .Low, .Output .High, PinState.INPUT]
    updater

end TFlipFlop

namespace IcCY7C199

/-- Inverse chip enable pin index -/
def CE_INV : Nat := 0

/-- Inverse output enable pin index -/
def OE_INV : Nat := 1

/-- Inverse write enable pin index -/
def WE_INV : Nat := 2

/-- IO pin starting index -/
def IO_START : Nat := 3

/-- Size of word (number of IO pins) -/
def WORD_SIZE : Nat := 8

/-- IO pin ending index -/
def IO_END : Nat := IO_START + WORD_SIZE

/-- Address pin starting index -/
def ADDR_START : Nat := IO_END

/-- Address width -/
def ADDR_SIZE : Nat := 15

/-- Address pin ending index -/
def ADDR_END : Nat := ADDR_START + ADDR_SIZE

/-- Total number of pins in part -/
def NUM_PINS : Nat := ADDR_END

/-- Total number of words in RAM -/
def NUM_WORDS : Nat := 1 <<< ADDR_SIZE

/-- `IcCY7C199::set_io`: fill the IO pin range with the given state. -/
def set_io (pins : List PinState) (val : PinState) : List PinState :=
  pins.take IO_START ++ List.replicate WORD_SIZE val ++ pins.drop IO_END

/-- `IcCY7C199::set_output`: set the pins to output the given value. -/
def set_output (pins : List PinState) (val : Nat) : List PinState :=
  let bus_val := BusValue.new_val val
  (List.range pins.length).map (fun i => PinState.Output (bus_val.sig i))

/-- `IcCY7C199::set_input`: change the pins to inputs holding the given value. -/
def set_input (pins : List PinState) (val : Nat) : List PinState :=
  let bus_val := BusValue.new_val val
  (List.range pins.length).map (fun i => PinState.Input (bus_val.sig i))

/-- `IcCY7C199::update` (`src/ic.rs`): the RAM part updater. `none` models a
panic; both the IO read and the address read go through `BusValue::unwrap`,
in that order. `ram[addr] = data as u8` keeps the explicit `% 256`. -/
def update (ram : List Nat) (pins : List PinState) : Option (List Nat × List PinState) :=
  let ce := (pins.getD CE_INV .HiZ).not
  let oe := (pins.getD OE_INV .HiZ).not
  let we := (pins.getD WE_INV .HiZ).not
  let io_pins := (pins.drop IO_START).take WORD_SIZE
  match (pinsVal io_pins).unwrap with
  | none => none
  | some data =>
    match (pinsVal (pins.drop ADDR_START)).unwrap with
    | none => none
    | some addr =>
      if ce.is_lowish then some (ram, set_io pins PinState.HiZ)
      else if oe.is_high then
        some (ram, pins.take IO_START ++ set_output io_pins (ram.getD addr 0) ++ pins.drop IO_END)
      else
        let pins1 := pins.take IO_START ++ set_input io_pins data ++ pins.drop IO_END
        if we.is_high then some (ram.set addr (data % 256), pins1)
        else some (ram, pins1)

end IcCY7C199

/-! ## C3 — the xor table -/

/-- C3 counterexample: the claim says `High xor Off = Low`, but the source
(`other_is!(High, a) if a != High => High`, confirmed by `test_xor`)
returns `High`. -/
theorem xor_high_off_counterexample :
    Signal.xor .High .Off = .High ∧ Signal.xor .High .Off ≠ .Low := by
  decide

/-- C3 (amended): `xor` returns `Error` if either operand is `Error`; `Off`
when both operands are `Off`; `High` exactly when exactly one of the two
operands is `High` (the other being `Low` or `Off`); and `Low` in every
other case (in particular `High xor Off = High` and `Off xor High = High`). -/
theorem signal_xor_table : ∀ x y : Signal,
    Signal.xor x y =
      (if x = .Error ∨ y = .Error then .Error
       else if x = .Off ∧ y = .Off then .Off
       else if (x == .High) != (y == .High) then .High
       else .Low) := by
  decide

/-! ## C5 — the T flip-flop update rule -/

/-- C5: on every tick the T flip-flop updater computes the new `Q` as `Low`
if `Reset` is high; else `High` if `Set` is high; else the old `Q̄` if
`Toggle` is high and the stored previous toggle is `Off` or `Low`; else the
old `Q`. It then drives `Q̄` with `not Q` and stores the toggle pin state
into the `T_prev` pin. -/
theorem tflipflop_update_rule :
    ∀ (hist : List (List PinState)) (t s r q qi tp : PinState),
      TFlipFlop.updater hist [t, s, r, q, qi, tp] =
        (let new_q :=
          if r.is_high then Signal.Low
          else if s.is_high then Signal.High
          else if t.is_high && tp.is_lowish then qi.sig
          else q.sig
        [t, s, r, .Output new_q, .Output new_q.not, t]) := by
  intro hist t s r q qi tp
  rfl

/-! ## C10 — bus encode/decode round trip -/

theorem getD_map_sig (l : List PinState) (i : Nat) (hi : i < l.length) :
    (l.map PinState.sig).getD i .Off = (l.getD i .HiZ).sig := by
  rw [List.getD_eq_getElem _ _ (by simpa using hi), List.getD_eq_getElem _ _ hi,
    List.getElem_map]

/-- C10: decoding a `BusValue` collapses `Off` to `Low`. For a sequence of
at most word-size signals encoded with `val()`, `BusValue::sig(i)` returns
`High` if the i-th signal was `High`, `Error` if it was `Error`, and `Low`
if it was `Low` or `Off`; in particular the decoded bit is never `Off`. -/
theorem busvalue_sig_round_trip :
    ∀ (l : List Signal) (i : Nat), l.length ≤ 64 → i < l.length →
      (listVal l).sig i =
          (match l.getD i .Off with
           | .High => .High
           | .Error => .Error
           | _ => .Low)
        ∧ (listVal l).sig i ≠ .Off := by
  intro l i _ hi
  have he := valFrom_error_bit l i hi
  have hv := valFrom_val_bit l i hi
  rw [listVal_eq_valFrom]
  unfold BusValue.sig
  rw [Nat.and_one_is_mod, Nat.and_one_is_mod]
  cases hc : l.getD i .Off <;> rw [hc] at he hv <;> simp at he hv <;> simp [he, hv]

theorem busvalue_sig_round_trip_witness :
    (listVal [.Off, .High, .Error]).sig 0 =
        (match ([Signal.Off, .High, .Error].getD 0 .Off) with
         | .High => .High
         | .Error => .Error
         | _ => .Low)
      ∧ (listVal [.Off, .High, .Error]).sig 0 ≠ .Off :=
  busvalue_sig_round_trip [.Off, .High, .Error] 0 (by decide) (by decide)

/-! ## C6 — the RAM panics on an `Error` IO bit -/

theorem pinsVal_error_bit (l : List PinState) (i : Nat) (hi : i < l.length) :
    ((pinsVal l).error >>> i) % 2 = (if (l.getD i .HiZ).sig = .Error then 1 else 0) := by
  have h := valFrom_error_bit (l.map PinState.sig) i (by simpa using hi)
  rw [pinsVal, listVal_eq_valFrom, h, getD_map_sig l i hi]

/-- C6 counterexample input: the chip selected for a write
(`CE_inv = Low`, `OE_inv = High`, `WE_inv = High` so `we` is `Low` — any
combination reaches the same unwrap), IO bit 0 in `Error`, address all `Low`. -/
def ramErrorPins : List PinState :=
  [.Input .Low, .Input .High, .Input .High] ++
    (PinState.Input .Error :: List.replicate 7 (PinState.Input .Low)) ++
    List.replicate 15 (PinState.Input .Low)

/-- C6 counterexample: an `Error` signal on an IO pin aborts the update
(`io_pins.iter().val().unwrap()` panics), contradicting the claim that only
an `Error` on an address bit panics. -/
theorem ram_io_error_panics_counterexample :
    IcCY7C199.update (List.replicate IcCY7C199.NUM_WORDS 255) ramErrorPins = none := by
  decide

/-- C6 (amended): the RAM per-tick update reads the IO pins as an 8-bit
`BusValue` and unwraps it before anything else, so for every RAM state and
every combination of control signals an `Error` on any IO pin panics, just
as an `Error` on an address bit does. -/
theorem ram_update_panics_on_io_error :
    ∀ (ram : List Nat) (pins : List PinState) (i : Nat),
      i < IcCY7C199.WORD_SIZE →
      IcCY7C199.IO_START + i < pins.length →
      (pins.getD (IcCY7C199.IO_START + i) .HiZ).sig = .Error →
      IcCY7C199.update ram pins = none := by
  intro ram pins i h8 hlen he
  have h8' : i < (8 : Nat) := h8
  have hlt : i < ((pins.drop IcCY7C199.IO_START).take IcCY7C199.WORD_SIZE).length := by
    simp [IcCY7C199.WORD_SIZE, IcCY7C199.IO_START] at *
    omega
  have hio : ((pins.drop IcCY7C199.IO_START).take IcCY7C199.WORD_SIZE).getD i .HiZ
      = pins.getD (IcCY7C199.IO_START + i) .HiZ := by
    rw [List.getD_eq_getElem _ _ hlt, List.getElem_take, List.getElem_drop,
      List.getD_eq_getElem _ _ hlen]
  have hbit := pinsVal_error_bit ((pins.drop IcCY7C199.IO_START).take IcCY7C199.WORD_SIZE) i hlt
  rw [hio, he] at hbit
  simp only [if_pos rfl] at hbit
  have herr : (pinsVal ((pins.drop IcCY7C199.IO_START).take IcCY7C199.WORD_SIZE)).error ≠ 0 := by
    intro h0
    rw [h0] at hbit
    simp at hbit
  have hunwrap :
      (pinsVal ((pins.drop IcCY7C199.IO_START).take IcCY7C199.WORD_SIZE)).unwrap = none := by
    simp [BusValue.unwrap, herr]
  simp [IcCY7C199.update, hunwrap]

theorem ram_update_panics_on_io_error_witness :
    IcCY7C199.update (List.replicate IcCY7C199.NUM_WORDS 255)
      (IcCY7C199.set_io (List.replicate IcCY7C199.NUM_PINS PinState.INPUT)
        (.Input .Error)) = none :=
  ram_update_panics_on_io_error _ _ 0 (by decide) (by decide) (by decide)

/-! ## C1/C2 — node-phase behaviour -/

/-- Whether a pin state is an `Input(_)`. -/
def isInput : PinState → Bool
  | .Input _ => true
  | _ => false

/-- Whether a pin state is an `Output(_)`. -/
def isOutput : PinState → Bool
  | .Output _ => true
  | _ => false

theorem getD_set {α : Type} (l : List α) (i j : Nat) (v d : α) :
    (l.set i v).getD j d = if i = j ∧ i < l.length then v else l.getD j d := by
  simp only [List.getD_eq_getElem?_getD, List.getElem?_set]
  split
  · rename_i h
    subst h
    by_cases hi : i < l.length
    · simp [hi]
    · simp only [hi, and_false, if_false, ite_false]
      rw [List.getElem?_eq_none (by omega : l.length ≤ i)]
  · rename_i h
    simp [h]

theorem getD_lt_length_of_ne_default (l : List PinState) (q : Nat)
    (h : l.getD q .HiZ ≠ .HiZ) : q < l.length := by
  by_contra hq
  rw [List.getD_eq_default _ _ (by omega)] at h
  exact h rfl

theorem writeInputs_cons (ps : List PinState) (q : Nat) (rest : List Nat) (s : Signal) :
    writeInputs ps (q :: rest) s =
      writeInputs (if isInput (ps.getD q .HiZ) then ps.set q (.Input s) else ps) rest s := by
  show writeInputs
      (match ps.getD q .HiZ with
        | PinState.Input _ => ps.set q (.Input s)
        | _ => ps) rest s = _
  congr 1
  cases ps.getD q .HiZ <;> simp [isInput]

theorem lt_length_of_isInput (ps : List PinState) (p : Nat)
    (h : isInput (ps.getD p .HiZ) = true) : p < ps.length :=
  getD_lt_length_of_ne_default ps p (by intro hz; rw [hz] at h; simp [isInput] at h)

theorem writeInputs_getD : ∀ (pins : List Nat) (ps : List PinState) (s : Signal) (p : Nat),
    (writeInputs ps pins s).getD p .HiZ =
      if p ∈ pins ∧ isInput (ps.getD p .HiZ) then .Input s else ps.getD p .HiZ := by
  intro pins
  induction pins with
  | nil => intro ps s p; simp [writeInputs]
  | cons q rest ih =>
    intro ps s p
    rw [writeInputs_cons]
    by_cases hpq : p = q
    · subst hpq
      by_cases hin : isInput (ps.getD p .HiZ)
      · rw [if_pos hin, ih]
        have hlt : p < ps.length := lt_length_of_isInput ps p hin
        have hset : (ps.set p (.Input s)).getD p .HiZ = .Input s := by
          rw [getD_set]; simp [hlt]
        by_cases hpr : p ∈ rest
        · rw [if_pos ⟨hpr, by rw [hset]; simp [isInput]⟩,
            if_pos ⟨List.mem_cons_self _ _, hin⟩]
        · rw [if_neg (by simp [hpr]), hset, if_pos ⟨List.mem_cons_self _ _, hin⟩]
      · rw [if_neg hin, ih, if_neg (fun hc => hin hc.2), if_neg (fun hc => hin hc.2)]
    · have hg : (if isInput (ps.getD q .HiZ) then ps.set q (.Input s) else ps).getD p .HiZ
          = ps.getD p .HiZ := by
        split
        · rw [getD_set, if_neg (fun hc => hpq hc.1.symm)]
        · rfl
      rw [ih, hg]
      simp only [List.mem_cons]
      simp [hpq]

/-- Pairwise disjointness of the nodes' member-pin sets (a consequence of
the graph's reverse-index invariant). -/
def NodesDisjoint (nodes : List (Nat × Node)) : Prop :=
  List.Pairwise (fun a b => ∀ p ∈ a.2.pin_ids, p ∉ b.2.pin_ids) nodes

instance : DecidablePred NodesDisjoint := fun nodes => by
  unfold NodesDisjoint
  infer_instance

/-- The default entry used with `getD` on node lists. -/
def dNode : Nat × Node := (0, Node.new 0)

theorem updateNodesGo_struct : ∀ (nodes : List (Nat × Node)) (ps : List PinState) (c : Nat),
    (updateNodesGo nodes ps c).1.length = nodes.length
    ∧ ∀ j : Nat,
        ((updateNodesGo nodes ps c).1.getD j dNode).1 = (nodes.getD j dNode).1
        ∧ ((updateNodesGo nodes ps c).1.getD j dNode).2.pin_ids
            = (nodes.getD j dNode).2.pin_ids := by
  intro nodes
  induction nodes with
  | nil => intro ps c; simp [updateNodesGo]
  | cons e rest ih =>
    intro ps c
    obtain ⟨id, nd⟩ := e
    rw [updateNodesGo]
    split
    · refine ⟨by simp [(ih _ _).1], ?_⟩
      intro j
      cases j with
      | zero => simp
      | succ n => simpa using (ih _ _).2 n
    · refine ⟨by simp [(ih _ _).1], ?_⟩
      intro j
      cases j with
      | zero => simp
      | succ n => simpa using (ih _ _).2 n

theorem updateNodesGo_frame : ∀ (nodes : List (Nat × Node)) (ps : List PinState) (c p : Nat),
    (∀ e ∈ nodes, p ∉ e.2.pin_ids) →
    (updateNodesGo nodes ps c).2.1.getD p .HiZ = ps.getD p .HiZ := by
  intro nodes
  induction nodes with
  | nil => intro ps c p _; simp [updateNodesGo]
  | cons e rest ih =>
    intro ps c p hp
    obtain ⟨id, nd⟩ := e
    rw [updateNodesGo]
    split
    · have h1 := ih (writeInputs ps nd.pin_ids (resolveNode ps nd)) (c + 1) p
        (fun e he => hp e (List.mem_cons_of_mem _ he))
      rw [h1, writeInputs_getD]
      have : p ∉ nd.pin_ids := hp (id, nd) (List.mem_cons_self _ _)
      simp [this]
    · exact ih ps c p (fun e he => hp e (List.mem_cons_of_mem _ he))

theorem updateNodesGo_changed : ∀ (nodes : List (Nat × Node)) (ps : List PinState) (c : Nat),
    NodesDisjoint nodes →
    ∀ j : Nat,
      ((updateNodesGo nodes ps c).1.getD j dNode).2.signal ≠ (nodes.getD j dNode).2.signal →
      ∀ p ∈ (nodes.getD j dNode).2.pin_ids, ∀ s : Signal,
        (updateNodesGo nodes ps c).2.1.getD p .HiZ = .Input s →
        s = ((updateNodesGo nodes ps c).1.getD j dNode).2.signal := by
  intro nodes
  induction nodes with
  | nil =>
    intro ps c _ j hch
    simp [updateNodesGo] at hch
  | cons e rest ih =>
    intro ps c hdisj j hch p hp s hs
    obtain ⟨id, nd⟩ := e
    unfold NodesDisjoint at hdisj
    rw [List.pairwise_cons] at hdisj
    rw [updateNodesGo] at hch hs ⊢
    revert hch hs
    split
    · rename_i hne
      cases j with
      | zero =>
        intro hch hs
        simp only [List.getD_cons_zero] at hch hp ⊢
        have hout : ∀ e ∈ rest, p ∉ e.2.pin_ids := fun e he => hdisj.1 e he p hp
        rw [updateNodesGo_frame rest _ _ p hout, writeInputs_getD] at hs
        by_cases hin : isInput (ps.getD p .HiZ)
        · rw [if_pos ⟨hp, hin⟩] at hs
          simpa using hs.symm
        · rw [if_neg (fun hc => hin hc.2)] at hs
          rw [hs] at hin
          simp [isInput] at hin
      | succ n =>
        intro hch hs
        simp only [List.getD_cons_succ] at hch hp ⊢
        exact ih _ _ hdisj.2 n hch p hp s hs
    · rename_i heq
      cases j with
      | zero =>
        intro hch
        simp at hch
      | succ n =>
        intro hch hs
        simp only [List.getD_cons_succ] at hch hp ⊢
        exact ih _ _ hdisj.2 n hch p hp s hs

/-- A graph holding one pin created by `new_input` and nothing else. -/
def singleInputGraph : GraphImpl := GraphImpl.new.new_input

/-- C1 counterexample: in the graph holding a single fresh `Input(Off)` pin
the only node has no `Output` member, yet after the node phase of `tick` its
resolved signal is the previously cached default `Error`, not `Off`. -/
theorem node_phase_starts_off_counterexample :
    (GraphImpl.tick singleInputGraph).1.nodes = [(0, ⟨[0], Signal.Error⟩)]
      ∧ Signal.Error ≠ Signal.Off := by
  decide

theorem resolveStep_fold_skip (ps : List PinState) :
    ∀ (pins : List Nat) (acc : Signal × Nat),
      (∀ p ∈ pins, isOutput (ps.getD p .HiZ) = false) →
      pins.foldl (resolveStep ps) acc = acc := by
  intro pins
  induction pins with
  | nil => intro acc _; simp
  | cons q rest ih =>
    intro acc hq
    rw [List.foldl_cons]
    have h1 : resolveStep ps acc q = acc := by
      have hthis := hq q (List.mem_cons_self _ _)
      unfold resolveStep
      cases hs : ps.getD q .HiZ with
      | HiZ => rfl
      | Input s0 => rfl
      | Output s0 =>
        rw [hs] at hthis
        simp [isOutput] at hthis
    rw [h1]
    exact ih acc (fun p hp => hq p (List.mem_cons_of_mem _ hp))

/-- C1 (amended): the node phase computes each node's resolved signal
starting from the node's previously cached signal, not from `Off`; hence a
node all of whose member pins are `HiZ` or `Input(·)` resolves to exactly
its cached signal. -/
theorem resolve_no_output_keeps_cached :
    ∀ (ps : List PinState) (nd : Node),
      (∀ p ∈ nd.pin_ids, isOutput (ps.getD p .HiZ) = false) →
      resolveNode ps nd = nd.signal := by
  intro ps nd h
  unfold resolveNode
  rw [resolveStep_fold_skip ps nd.pin_ids (nd.signal, 0) h]

theorem resolve_no_output_keeps_cached_witness :
    resolveNode [PinState.Input .Off] ⟨[0], Signal.High⟩ = Signal.High :=
  resolve_no_output_keeps_cached [PinState.Input .Off] ⟨[0], Signal.High⟩ (by decide)

/-- C2 counterexample: after `tick` on the single fresh input-pin graph the
pin still reads `Input(Off)` while its node's cached resolved signal is the
default `Error` — the write-back is skipped because the resolved signal did
not change. -/
theorem input_matches_node_counterexample :
    (GraphImpl.tick singleInputGraph).1.pin_states = [PinState.Input .Off]
      ∧ mapLookup 0 (GraphImpl.tick singleInputGraph).1.nodes = some ⟨[0], Signal.Error⟩
      ∧ Signal.Off ≠ Signal.Error := by
  decide

/-- C2 (amended): after a `tick`, for every node whose cached signal changed
during that tick's node phase, every member pin left in `Input(·)` state
holds exactly the node's new cached signal (position `j` in the node map;
keys and member sets are untouched by the tick). Nodes whose resolved
signal equals their cached one do not get their inputs rewritten. -/
theorem tick_changed_node_inputs :
    ∀ (g : GraphImpl) (j : Nat), NodesDisjoint g.nodes →
      ((g.tick.1.nodes.getD j dNode).1 = (g.nodes.getD j dNode).1
        ∧ (g.tick.1.nodes.getD j dNode).2.pin_ids = (g.nodes.getD j dNode).2.pin_ids)
      ∧ ((g.tick.1.nodes.getD j dNode).2.signal ≠ (g.nodes.getD j dNode).2.signal →
          ∀ p ∈ (g.nodes.getD j dNode).2.pin_ids, ∀ s : Signal,
            g.tick.1.pin_states.getD p .HiZ = .Input s →
            s = (g.tick.1.nodes.getD j dNode).2.signal) := by
  intro g j hdisj
  have hnodes : g.update_parts.nodes = g.nodes := rfl
  have hstruct := updateNodesGo_struct g.nodes g.update_parts.pin_states 0
  have hchanged := updateNodesGo_changed g.nodes g.update_parts.pin_states 0 hdisj j
  have htick1 : g.tick.1.nodes = (updateNodesGo g.nodes g.update_parts.pin_states 0).1 := rfl
  have htick2 :
      g.tick.1.pin_states = (updateNodesGo g.nodes g.update_parts.pin_states 0).2.1 := rfl
  rw [htick1, htick2]
  exact ⟨(hstruct.2 j), hchanged⟩

theorem tick_changed_node_inputs_witness :
    ((GraphImpl.tick singleInputGraph).1.nodes.getD 0 dNode).1
        = (singleInputGraph.nodes.getD 0 dNode).1
      ∧ ((GraphImpl.tick singleInputGraph).1.nodes.getD 0 dNode).2.pin_ids
        = (singleInputGraph.nodes.getD 0 dNode).2.pin_ids :=
  (tick_changed_node_inputs singleInputGraph 0 (by decide)).1

/-! ## C9 — the not-chain scenario -/

/-- The not-chain scenario: one source pin `Output(High)` (pin 0), two not
gates in series (pins 1/2 and 3/4), wired `0 → 1` and `2 → 3`. -/
def notChainGraph : GraphImpl :=
  let g0 := GraphImpl.new.new_output Signal.High
  let g1 := not_gate g0
  let g2 := not_gate g1
  (g2.connectD 0 1).connectD 2 3

/-- C9 counterexample: `run()` on the not chain returns `ticks = 4`
(`ticks` starts at 1 and three passes report node updates), not 3. -/
theorem not_chain_ticks_counterexample :
    (GraphImpl.run 10 notChainGraph).map (fun r => r.1.ticks) = some 4 ∧ (4 : Nat) ≠ 3 := by
  constructor
  · decide
  · decide

/-- C9 (amended): in the not-chain scenario `run()` returns
`ticks = 4` (with `updates = 5`, `cycle = 0`), and at that point the first
gate's output signal is `Low` and the second gate's output signal is
`High`. -/
theorem not_chain_run :
    (GraphImpl.run 10 notChainGraph).map
        (fun r => (r.1, r.2.get_signal 2, r.2.get_signal 4)) =
      some (⟨4, 5, 0⟩, Signal.Low, Signal.High) := by
  decide

/-! ## C7 — `connect` -/

theorem mapLookup_eq_none_of_not_mem (k : Nat) :
    ∀ l : List (Nat × Node), k ∉ l.map Prod.fst → mapLookup k l = none := by
  intro l
  induction l with
  | nil => intro _; rfl
  | cons e rest ih =>
    intro h
    obtain ⟨ke, ve⟩ := e
    simp only [List.map_cons, List.mem_cons] at h
    rw [mapLookup, if_neg (fun hc => h (Or.inl hc))]
    exact ih (fun hc => h (Or.inr hc))

theorem mapLookup_mapErase_ne (k k' : Nat) (h : k ≠ k') :
    ∀ l : List (Nat × Node), mapLookup k' (mapErase k l) = mapLookup k' l := by
  intro l
  induction l with
  | nil => rfl
  | cons e rest ih =>
    obtain ⟨ke, ve⟩ := e
    rw [mapErase]
    by_cases hk : k = ke
    · subst hk
      rw [if_pos rfl, mapLookup, if_neg (fun hc => h hc.symm)]
    · rw [if_neg hk, mapLookup, mapLookup]
      by_cases hke : k' = ke
      · rw [if_pos hke, if_pos hke]
      · rw [if_neg hke, if_neg hke, ih]

theorem mapLookup_mapErase_self (k : Nat) :
    ∀ l : List (Nat × Node), (l.map Prod.fst).Nodup → mapLookup k (mapErase k l) = none := by
  intro l
  induction l with
  | nil => intro _; rfl
  | cons e rest ih =>
    intro hnd
    obtain ⟨ke, ve⟩ := e
    simp only [List.map_cons, List.nodup_cons] at hnd
    rw [mapErase]
    by_cases hk : k = ke
    · subst hk
      rw [if_pos rfl]
      exact mapLookup_eq_none_of_not_mem k rest hnd.1
    · rw [if_neg hk, mapLookup, if_neg hk]
      exact ih hnd.2

theorem mapLookup_mapInsert_self (k : Nat) (v : Node) :
    ∀ l : List (Nat × Node), mapLookup k (mapInsert k v l) = some v := by
  intro l
  induction l with
  | nil => simp [mapInsert, mapLookup]
  | cons e rest ih =>
    obtain ⟨ke, ve⟩ := e
    rw [mapInsert]
    by_cases h1 : k < ke
    · rw [if_pos h1, mapLookup, if_pos rfl]
    · rw [if_neg h1]
      by_cases h2 : k = ke
      · rw [if_pos h2, mapLookup, if_pos rfl]
      · rw [if_neg h2, mapLookup, if_neg h2, ih]

theorem mapLookup_mapInsert_ne (k k' : Nat) (v : Node) (h : k' ≠ k) :
    ∀ l : List (Nat × Node), mapLookup k' (mapInsert k v l) = mapLookup k' l := by
  intro l
  induction l with
  | nil => simp [mapInsert, mapLookup, h]
  | cons e rest ih =>
    obtain ⟨ke, ve⟩ := e
    rw [mapInsert]
    by_cases h1 : k < ke
    · rw [if_pos h1, mapLookup, if_neg h, mapLookup]
    · rw [if_neg h1]
      by_cases h2 : k = ke
      · subst h2
        rw [if_pos rfl, mapLookup, if_neg h, mapLookup, if_neg h]
      · rw [if_neg h2, mapLookup, mapLookup]
        by_cases h3 : k' = ke
        · rw [if_pos h3, if_pos h3]
        · rw [if_neg h3, if_neg h3, ih]

theorem mem_setInsert (x : Nat) : ∀ (l : List Nat) (p : Nat),
    p ∈ setInsert x l ↔ p = x ∨ p ∈ l := by
  intro l
  induction l with
  | nil => intro p; simp [setInsert]
  | cons y ys ih =>
    intro p
    rw [setInsert]
    by_cases h1 : x < y
    · rw [if_pos h1]
      simp [List.mem_cons]
    · rw [if_neg h1]
      by_cases h2 : x = y
      · subst h2
        rw [if_pos rfl]
        simp only [List.mem_cons]
        tauto
      · rw [if_neg h2]
        simp only [List.mem_cons, ih]
        tauto

theorem mem_foldl_setInsert : ∀ (l : List Nat) (s0 : List Nat) (p : Nat),
    p ∈ l.foldl (fun s q => setInsert q s) s0 ↔ p ∈ l ∨ p ∈ s0 := by
  intro l
  induction l with
  | nil => intro s0 p; simp
  | cons q rest ih =>
    intro s0 p
    rw [List.foldl_cons, ih (setInsert q s0) p]
    simp only [mem_setInsert, List.mem_cons]
    tauto

theorem foldl_set_getD : ∀ (l : List Nat) (pn : List Nat) (aN q : Nat),
    (l.foldl (fun pn p => pn.set p aN) pn).getD q 0 =
      if q ∈ l ∧ q < pn.length then aN else pn.getD q 0 := by
  intro l
  induction l with
  | nil => intro pn aN q; simp
  | cons p rest ih =>
    intro pn aN q
    rw [List.foldl_cons, ih, getD_set, List.length_set]
    by_cases hql : q < pn.length
    · by_cases hqr : q ∈ rest
      · rw [if_pos ⟨hqr, hql⟩, if_pos ⟨List.mem_cons.mpr (Or.inr hqr), hql⟩]
      · by_cases hpq : p = q
        · rw [if_neg (fun hc => hqr hc.1), if_pos ⟨hpq, by omega⟩,
            if_pos ⟨List.mem_cons.mpr (Or.inl hpq.symm), hql⟩]
        · rw [if_neg (fun hc => hqr hc.1), if_neg (fun hc => hpq hc.1),
            if_neg (fun hc => (List.mem_cons.mp hc.1).elim (fun h => hpq h.symm) hqr)]
    · rw [if_neg (fun hc => hql hc.2), if_neg (fun hc => hql (by omega)),
        if_neg (fun hc => hql hc.2)]

/-- A graph with two fresh input pins, used to witness `connect`. -/
def twoPinGraph : GraphImpl := GraphImpl.new.new_input.new_input

/-- C7: under the graph invariants (node keys distinct, the reverse index
pointing at nodes that exist, member pins within the reverse index),
`connect(a, b)` panics exactly when `a` and `b` already share a node
(directly or transitively); otherwise it succeeds, removes `b`'s node from
the map, makes the surviving node — deterministically `a`'s node id — hold
the union of both pin sets with `a`'s node's cached signal, rewrites the
reverse index for exactly the moved pins, and leaves every other node and
all other graph fields unchanged. -/
theorem connect_spec :
    ∀ (g : GraphImpl) (a b : Nat) (a_node b_node : Node),
      (g.nodes.map Prod.fst).Nodup →
      mapLookup (g.pin_nodes.getD a 0) g.nodes = some a_node →
      mapLookup (g.pin_nodes.getD b 0) g.nodes = some b_node →
      (∀ p ∈ b_node.pin_ids, p < g.pin_nodes.length) →
      ((g.connect a b = none ↔ g.pin_nodes.getD a 0 = g.pin_nodes.getD b 0)
        ∧ ∀ g', g.connect a b = some g' →
            mapLookup (g.pin_nodes.getD b 0) g'.nodes = none
            ∧ (∃ merged : Node,
                mapLookup (g.pin_nodes.getD a 0) g'.nodes = some merged
                  ∧ merged.signal = a_node.signal
                  ∧ ∀ p : Nat, p ∈ merged.pin_ids ↔ p ∈ a_node.pin_ids ∨ p ∈ b_node.pin_ids)
            ∧ (∀ k, k ≠ g.pin_nodes.getD a 0 → k ≠ g.pin_nodes.getD b 0 →
                mapLookup k g'.nodes = mapLookup k g.nodes)
            ∧ (∀ p : Nat, g'.pin_nodes.getD p 0 =
                if p ∈ b_node.pin_ids then g.pin_nodes.getD a 0 else g.pin_nodes.getD p 0)
            ∧ g'.pin_states = g.pin_states ∧ g'.parts = g.parts
            ∧ g'.next_node = g.next_node) := by
  intro g a b a_node b_node hnd ha hb hblen
  by_cases heq : g.pin_nodes.getD a 0 = g.pin_nodes.getD b 0
  · have hnone : g.connect a b = none := by
      unfold GraphImpl.connect
      rw [if_pos heq]
    refine ⟨⟨fun _ => heq, fun _ => hnone⟩, ?_⟩
    intro g' hg'
    rw [hnone] at hg'
    exact absurd hg' (by simp)
  · have ha1 : mapLookup (g.pin_nodes.getD a 0) (mapErase (g.pin_nodes.getD b 0) g.nodes)
        = some a_node := by
      rw [mapLookup_mapErase_ne _ _ (fun hc => heq hc.symm), ha]
    have hsome : g.connect a b =
        some { g with
          nodes := mapInsert (g.pin_nodes.getD a 0)
            { a_node with
              pin_ids := b_node.pin_ids.foldl (fun s p => setInsert p s) a_node.pin_ids }
            (mapErase (g.pin_nodes.getD b 0) g.nodes)
          pin_nodes := b_node.pin_ids.foldl
            (fun pn p => pn.set p (g.pin_nodes.getD a 0)) g.pin_nodes } := by
      simp only [GraphImpl.connect, if_neg heq, hb, ha1]
    refine ⟨⟨fun hc => ?_, fun hc => absurd hc heq⟩, ?_⟩
    · rw [hsome] at hc
      exact absurd hc (by simp)
    · intro g' hg'
      rw [hsome] at hg'
      have hg'' := Option.some.inj hg'
      subst hg''
      refine ⟨?_,
        ⟨{ a_node with
            pin_ids := b_node.pin_ids.foldl (fun s p => setInsert p s) a_node.pin_ids },
          ?_, rfl, ?_⟩, ?_, ?_, rfl, rfl, rfl⟩
      · exact (mapLookup_mapInsert_ne _ _ _ (fun hc => heq hc.symm) _).trans
          (mapLookup_mapErase_self _ g.nodes hnd)
      · exact mapLookup_mapInsert_self _ _ _
      · intro p
        exact (mem_foldl_setInsert b_node.pin_ids a_node.pin_ids p).trans (by tauto)
      · intro k hka hkb
        exact (mapLookup_mapInsert_ne _ _ _ hka _).trans
          (mapLookup_mapErase_ne _ _ (fun hc => hkb hc.symm) g.nodes)
      · intro p
        show (b_node.pin_ids.foldl (fun pn p => pn.set p (g.pin_nodes.getD a 0))
            g.pin_nodes).getD p 0 = _
        rw [foldl_set_getD]
        by_cases hp : p ∈ b_node.pin_ids
        · rw [if_pos ⟨hp, hblen p hp⟩, if_pos hp]
        · rw [if_neg (fun hc => hp hc.1), if_neg hp]

theorem connect_spec_witness :
    (twoPinGraph.connect 0 1 = none
        ↔ twoPinGraph.pin_nodes.getD 0 0 = twoPinGraph.pin_nodes.getD 1 0)
      ∧ ∀ g', twoPinGraph.connect 0 1 = some g' →
          mapLookup (twoPinGraph.pin_nodes.getD 1 0) g'.nodes = none
          ∧ (∃ merged : Node,
              mapLookup (twoPinGraph.pin_nodes.getD 0 0) g'.nodes = some merged
                ∧ merged.signal = (⟨[0], Signal.Error⟩ : Node).signal
                ∧ ∀ p : Nat, p ∈ merged.pin_ids ↔
                    p ∈ (⟨[0], Signal.Error⟩ : Node).pin_ids
                      ∨ p ∈ (⟨[1], Signal.Error⟩ : Node).pin_ids)
          ∧ (∀ k, k ≠ twoPinGraph.pin_nodes.getD 0 0 → k ≠ twoPinGraph.pin_nodes.getD 1 0 →
              mapLookup k g'.nodes = mapLookup k twoPinGraph.nodes)
          ∧ (∀ p : Nat, g'.pin_nodes.getD p 0 =
              if p ∈ (⟨[1], Signal.Error⟩ : Node).pin_ids
              then twoPinGraph.pin_nodes.getD 0 0 else twoPinGraph.pin_nodes.getD p 0)
          ∧ g'.pin_states = twoPinGraph.pin_states ∧ g'.parts = twoPinGraph.parts
          ∧ g'.next_node = twoPinGraph.next_node :=
  connect_spec twoPinGraph 0 1 ⟨[0], Signal.Error⟩ ⟨[1], Signal.Error⟩
    (by decide) (by decide) (by decide) (by decide)

/-! ## C4 — `run` terminates on every graph

The fingerprinted data (pin states and nodes) ranges over a finite set: a
tick never changes the number of pins nor the node keys and member sets,
only pin states and node signals. Each loop pass either breaks or inserts a
fresh fingerprint, so the loop breaks after at most finitely many passes. -/

/-- The tick-invariant part of a node entry: its key and member pins. -/
def nodeSk (e : Nat × Node) : Nat × List Nat := (e.1, e.2.pin_ids)

/-- The shape of a fingerprint: pin count and node skeleton. -/
def FpShape (fp : Fingerprint) (L : Nat) (K : List (Nat × List Nat)) : Prop :=
  fp.1.length = L ∧ fp.2.map nodeSk = K

/-- Fingerprints of a given shape embed into this finite type. -/
def encFp (L N : Nat) (fp : Fingerprint) : (Fin L → PinState) × (Fin N → Signal) :=
  (fun i => fp.1.getD i .HiZ, fun j => (fp.2.getD j dNode).2.signal)

/-- The number of distinct fingerprints of a given shape is at most this. -/
def stateBound (L N : Nat) : Nat := Fintype.card ((Fin L → PinState) × (Fin N → Signal))

theorem pinlist_ext (l1 l2 : List PinState) (hlen : l1.length = l2.length)
    (h : ∀ i, i < l1.length → l1.getD i .HiZ = l2.getD i .HiZ) : l1 = l2 := by
  refine List.ext_getElem hlen ?_
  intro i h1 h2
  have hi := h i h1
  rwa [List.getD_eq_getElem _ _ h1, List.getD_eq_getElem _ _ h2] at hi

theorem nodes_ext : ∀ (n1 n2 : List (Nat × Node)),
    n1.map nodeSk = n2.map nodeSk →
    (∀ j : Nat, (n1.getD j dNode).2.signal = (n2.getD j dNode).2.signal) →
    n1 = n2 := by
  intro n1
  induction n1 with
  | nil =>
    intro n2 hsk _
    cases n2 with
    | nil => rfl
    | cons e2 rest2 => simp at hsk
  | cons e rest ih =>
    intro n2 hsk hsig
    cases n2 with
    | nil => simp at hsk
    | cons e2 rest2 =>
      simp only [List.map_cons, List.cons.injEq] at hsk
      have h0 := hsig 0
      simp only [List.getD_cons_zero] at h0
      have he : e = e2 := by
        obtain ⟨k1, p1, s1⟩ := e
        obtain ⟨k2, p2, s2⟩ := e2
        simp only [nodeSk, Prod.mk.injEq] at hsk h0
        simp [hsk.1.1, hsk.1.2, h0]
      rw [he, ih rest2 hsk.2 (fun j => by simpa using hsig (j + 1))]

theorem encFp_inj (L : Nat) (K : List (Nat × List Nat)) (fp1 fp2 : Fingerprint)
    (h1 : FpShape fp1 L K) (h2 : FpShape fp2 L K)
    (he : encFp L K.length fp1 = encFp L K.length fp2) : fp1 = fp2 := by
  obtain ⟨hl1, hn1⟩ := h1
  obtain ⟨hl2, hn2⟩ := h2
  obtain ⟨fps1, fpn1⟩ := fp1
  obtain ⟨fps2, fpn2⟩ := fp2
  simp only [encFp, Prod.mk.injEq] at he
  simp only [FpShape] at *
  have hN1 : fpn1.length = K.length := by rw [← hn1]; simp
  have hN2 : fpn2.length = K.length := by rw [← hn2]; simp
  have hps : fps1 = fps2 := by
    refine pinlist_ext fps1 fps2 (by omega) ?_
    intro i hi
    exact congrFun he.1 ⟨i, by omega⟩
  have hns : fpn1 = fpn2 := by
    refine nodes_ext fpn1 fpn2 (by rw [hn1, hn2]) ?_
    intro j
    by_cases hj : j < K.length
    · exact congrFun he.2 ⟨j, hj⟩
    · rw [List.getD_eq_default _ _ (by omega), List.getD_eq_default _ _ (by omega)]
  simp [hps, hns]

theorem seen_le_bound (L : Nat) (K : List (Nat × List Nat)) (seen : List Fingerprint)
    (hnd : seen.Nodup) (hsh : ∀ fp ∈ seen, FpShape fp L K) :
    seen.length ≤ stateBound L K.length := by
  have hmap : (seen.map (encFp L K.length)).Nodup :=
    List.Nodup.map_on
      (fun x hx y hy hxy => encFp_inj L K x y (hsh x hx) (hsh y hy) hxy) hnd
  have hcard := List.Nodup.length_le_card hmap
  simpa [stateBound] using hcard

theorem foldl_set_length : ∀ (l : List (Nat × PinState)) (ps : List PinState) (start : Nat),
    (l.foldl (fun acc iv => acc.set (start + iv.1) iv.2) ps).length = ps.length := by
  intro l
  induction l with
  | nil => intro ps start; rfl
  | cons iv rest ih =>
    intro ps start
    rw [List.foldl_cons, ih, List.length_set]

theorem writeSlice_length (ps : List PinState) (start : Nat) (vals : List PinState) :
    (writeSlice ps start vals).length = ps.length :=
  foldl_set_length vals.enum ps start

theorem update_parts_foldl_length :
    ∀ (parts : List PartEntry) (ps : List PinState) (acc : List PartEntry),
      (parts.foldl
        (fun (acc : List PinState × List PartEntry) pe =>
          let slice := (acc.1.drop pe.start).take (pe.stop - pe.start)
          let out := (pe.updater pe.history slice).take (pe.stop - pe.start)
          (writeSlice acc.1 pe.start out,
            acc.2 ++ [{ pe with history := pe.history ++ [slice] }]))
        (ps, acc)).1.length = ps.length := by
  intro parts
  induction parts with
  | nil => intro ps acc; rfl
  | cons pe rest ih =>
    intro ps acc
    rw [List.foldl_cons]
    rw [ih]
    exact writeSlice_length _ _ _

theorem update_parts_shape (g : GraphImpl) :
    g.update_parts.pin_states.length = g.pin_states.length
      ∧ g.update_parts.nodes = g.nodes :=
  ⟨update_parts_foldl_length g.parts g.pin_states [], rfl⟩

theorem writeInputs_length : ∀ (pins : List Nat) (ps : List PinState) (s : Signal),
    (writeInputs ps pins s).length = ps.length := by
  intro pins
  induction pins with
  | nil => intro ps s; rfl
  | cons q rest ih =>
    intro ps s
    rw [writeInputs_cons, ih]
    split
    · exact List.length_set _ _ _
    · rfl

theorem updateNodesGo_shape : ∀ (nodes : List (Nat × Node)) (ps : List PinState) (c : Nat),
    (updateNodesGo nodes ps c).1.map nodeSk = nodes.map nodeSk
      ∧ (updateNodesGo nodes ps c).2.1.length = ps.length := by
  intro nodes
  induction nodes with
  | nil => intro ps c; exact ⟨rfl, rfl⟩
  | cons e rest ih =>
    intro ps c
    obtain ⟨id, nd⟩ := e
    rw [updateNodesGo]
    split
    · refine ⟨?_, ?_⟩
      · simp only [List.map_cons]
        rw [(ih _ _).1]
        rfl
      · rw [(ih _ _).2, writeInputs_length]
    · refine ⟨?_, ?_⟩
      · simp only [List.map_cons]
        rw [(ih _ _).1]
      · exact (ih _ _).2

theorem tick_shape (g : GraphImpl) :
    g.tick.1.pin_states.length = g.pin_states.length
      ∧ g.tick.1.nodes.map nodeSk = g.nodes.map nodeSk := by
  have h1 := update_parts_shape g
  have h2 := updateNodesGo_shape g.update_parts.nodes g.update_parts.pin_states 0
  have ht1 : g.tick.1.pin_states
      = (updateNodesGo g.update_parts.nodes g.update_parts.pin_states 0).2.1 := rfl
  have ht2 : g.tick.1.nodes
      = (updateNodesGo g.update_parts.nodes g.update_parts.pin_states 0).1 := rfl
  rw [ht1, ht2, h2.2, h2.1, h1.2]
  exact ⟨h1.1, rfl⟩

theorem seenLookup_none_not_mem : ∀ (seen : List (Fingerprint × Nat)) (fp : Fingerprint),
    seenLookup seen fp = none → fp ∉ seen.map Prod.fst := by
  intro seen
  induction seen with
  | nil => intro fp _; simp
  | cons e rest ih =>
    intro fp h
    rw [seenLookup] at h
    by_cases hf : fp = e.1
    · rw [if_pos hf] at h
      exact absurd h (by simp)
    · rw [if_neg hf] at h
      simp only [List.map_cons, List.mem_cons]
      exact fun hc => hc.elim hf (ih fp h)

theorem runGo_isSome (L : Nat) (K : List (Nat × List Nat)) :
    ∀ (fuel : Nat) (g : GraphImpl) (stats : RunStats) (seen : List (Fingerprint × Nat)),
      (seen.map Prod.fst).Nodup →
      (∀ fp ∈ seen.map Prod.fst, FpShape fp L K) →
      FpShape g.fingerprint L K →
      stateBound L K.length < fuel + seen.length →
      (runGo fuel g stats seen).isSome := by
  intro fuel
  induction fuel with
  | zero =>
    intro g stats seen hnd hsh _ hlt
    have := seen_le_bound L K (seen.map Prod.fst) hnd hsh
    simp at hlt
    simp at this
    omega
  | succ fuel ih =>
    intro g stats seen hnd hsh hg hlt
    rw [runGo]
    by_cases h0 : g.tick.2 = 0
    · simp [h0]
    · simp only [h0, if_neg]
      have hfp : FpShape g.tick.1.fingerprint L K := by
        have hs := tick_shape g
        exact ⟨hs.1.trans hg.1, hs.2.trans hg.2⟩
      cases hlk : seenLookup seen g.tick.1.fingerprint with
      | some tk => simp
      | none =>
        simp only []
        refine ih g.tick.1 _ _ ?_ ?_ hfp ?_
        · simp only [List.map_cons]
          exact List.nodup_cons.mpr ⟨seenLookup_none_not_mem seen _ hlk, hnd⟩
        · intro fp hfpmem
          simp only [List.map_cons, List.mem_cons] at hfpmem
          exact hfpmem.elim (fun h => h ▸ hfp) (hsh fp)
        · simp only [List.length_cons]
          omega

theorem runGo_mono : ∀ (fuel fuel' : Nat) (g : GraphImpl) (stats : RunStats)
    (seen : List (Fingerprint × Nat)) (r : RunStats × GraphImpl),
    fuel ≤ fuel' → runGo fuel g stats seen = some r → runGo fuel' g stats seen = some r := by
  intro fuel
  induction fuel with
  | zero =>
    intro fuel' g stats seen r _ h
    exact absurd h (by rw [runGo]; simp)
  | succ fuel ih =>
    intro fuel' g stats seen r hle h
    obtain ⟨fuel'', rfl⟩ : ∃ k, fuel' = k + 1 :=
      ⟨fuel' - 1, by omega⟩
    rw [runGo] at h ⊢
    by_cases h0 : g.tick.2 = 0
    · simpa [h0] using h
    · simp only [h0, if_neg] at h ⊢
      cases hlk : seenLookup seen g.tick.1.fingerprint with
      | some tk =>
        rw [hlk] at h
        simpa using h
      | none =>
        rw [hlk] at h
        simp only [] at h ⊢
        exact ih fuel'' g.tick.1 _ _ r (by omega) h

/-- C4: `run()` terminates for every graph, returning a `RunStats` record:
some fuel bound suffices for the loop of repeated `tick()`s — which breaks
on a tick reporting 0 node updates (leaving `cycle = 0`) or on a repeated
fingerprint of the full pin-state sequence and nodes (setting
`cycle = ticks - previous_tick - 1`, see `runGo`) — and every larger fuel
returns the same stats, so an oscillating circuit yields a returned stats
record rather than an exception or an infinite loop. -/
theorem run_terminates :
    ∀ g : GraphImpl, ∃ (fuel : Nat) (stats : RunStats) (g' : GraphImpl),
      GraphImpl.run fuel g = some (stats, g')
        ∧ ∀ fuel', fuel ≤ fuel' → GraphImpl.run fuel' g = some (stats, g') := by
  intro g
  have h := runGo_isSome g.pin_states.length (g.nodes.map nodeSk)
    (stateBound g.pin_states.length (g.nodes.map nodeSk).length + 1) g ⟨1, 0, 0⟩ []
    (by simp) (by simp) ⟨rfl, rfl⟩ (by simp)
  obtain ⟨r, hr⟩ := Option.isSome_iff_exists.mp h
  exact ⟨_, r.1, r.2, hr, fun fuel' hle => runGo_mono _ fuel' g ⟨1, 0, 0⟩ [] r hle hr⟩

/-! ## C8 — bus round trip: list and map segment lemmas -/

theorem getD_rangeMap {α : Type} (n : Nat) (f : Nat → α) (k : Nat) (d : α) :
    ((List.range n).map f).getD k d = if k < n then f k else d := by
  by_cases h : k < n
  · rw [List.getD_eq_getElem _ _ (by simpa using h)]
    simp [h]
  · rw [List.getD_eq_default _ _ (by simp; omega)]
    simp [h]

theorem getD_range (n k d : Nat) : (List.range n).getD k d = if k < n then k else d := by
  by_cases h : k < n
  · rw [List.getD_eq_getElem _ _ (by simpa using h)]
    simp [h]
  · rw [List.getD_eq_default _ _ (by simp; omega)]
    simp [h]

theorem getD_replicate {α : Type} (n : Nat) (x : α) (k : Nat) (d : α) :
    (List.replicate n x).getD k d = if k < n then x else d := by
  by_cases h : k < n
  · rw [List.getD_eq_getElem _ _ (by simpa using h)]
    simp [h]
  · rw [List.getD_eq_default _ _ (by simp; omega)]
    simp [h]

theorem mapLookup_append_of_some (k : Nat) (nd : Node) :
    ∀ (l1 l2 : List (Nat × Node)), mapLookup k l1 = some nd →
      mapLookup k (l1 ++ l2) = some nd := by
  intro l1 l2
  induction l1 with
  | nil => intro h; exact absurd h (by simp [mapLookup])
  | cons e rest ih =>
    intro h
    rw [mapLookup] at h
    rw [List.cons_append, mapLookup]
    by_cases hk : k = e.1
    · rwa [if_pos hk] at h ⊢
    · rw [if_neg hk] at h ⊢
      exact ih h

theorem mapLookup_append_of_none (k : Nat) :
    ∀ (l1 l2 : List (Nat × Node)), mapLookup k l1 = none →
      mapLookup k (l1 ++ l2) = mapLookup k l2 := by
  intro l1 l2
  induction l1 with
  | nil => intro _; rfl
  | cons e rest ih =>
    intro h
    rw [mapLookup] at h
    rw [List.cons_append, mapLookup]
    by_cases hk : k = e.1
    · rw [if_pos hk] at h; exact absurd h (by simp)
    · rw [if_neg hk] at h ⊢
      exact ih h

theorem mapErase_append_of_none (k : Nat) :
    ∀ (l1 l2 : List (Nat × Node)), mapLookup k l1 = none →
      mapErase k (l1 ++ l2) = l1 ++ mapErase k l2 := by
  intro l1 l2
  induction l1 with
  | nil => intro _; rfl
  | cons e rest ih =>
    intro h
    rw [mapLookup] at h
    rw [List.cons_append, mapErase]
    by_cases hk : k = e.1
    · rw [if_pos hk] at h; exact absurd h (by simp)
    · rw [if_neg hk] at h ⊢
      rw [ih h, List.cons_append]

theorem mapLookup_rangeMap : ∀ (n : Nat) (F : Nat → Node) (base k : Nat),
    mapLookup k ((List.range n).map (fun i => (base + i, F i))) =
      if base ≤ k ∧ k < base + n then some (F (k - base)) else none := by
  intro n
  induction n with
  | zero =>
    intro F base k
    rw [if_neg (by omega)]
    rfl
  | succ m ih =>
    intro F base k
    rw [List.range_succ_eq_map, List.map_cons, List.map_map, mapLookup]
    by_cases hk : k = base + 0
    · rw [if_pos hk, if_pos (by omega)]
      have : k - base = 0 := by omega
      rw [this]
    · rw [if_neg hk]
      have hcomp : ((fun i => (base + i, F i)) ∘ Nat.succ)
          = fun i => ((base + 1) + i, (fun t => F (t + 1)) i) := by
        funext i
        simp only [Function.comp_apply, Nat.succ_eq_add_one, Prod.mk.injEq]
        exact ⟨by omega, trivial⟩
      rw [hcomp, ih (fun t => F (t + 1)) (base + 1) k]
      by_cases hin : base + 1 ≤ k ∧ k < base + 1 + m
      · rw [if_pos hin, if_pos (by omega)]
        have : k - (base + 1) + 1 = k - base := by omega
        rw [this]
      · rw [if_neg hin, if_neg (by omega)]

theorem mapLookup_rangeMap0 (n : Nat) (F : Nat → Node) (k : Nat) :
    mapLookup k ((List.range n).map (fun i => (i, F i))) =
      if k < n then some (F k) else none := by
  have h : (List.range n).map (fun i => (i, F i))
      = (List.range n).map (fun i => (0 + i, F i)) := by
    refine List.map_congr_left ?_
    intro i _
    simp
  rw [h, mapLookup_rangeMap n F 0 k]
  by_cases hk : k < n
  · rw [if_pos (by omega), if_pos hk]
    simp
  · rw [if_neg (by omega), if_neg hk]

theorem mapErase_rangeMap_head (F : Nat → Node) (m base : Nat) :
    mapErase base ((List.range (m + 1)).map (fun i => (base + i, F i))) =
      (List.range m).map (fun i => ((base + 1) + i, F (i + 1))) := by
  rw [List.range_succ_eq_map, List.map_cons, List.map_map, mapErase, if_pos (by omega)]
  refine List.map_congr_left ?_
  intro i _
  simp only [Function.comp_apply, Nat.succ_eq_add_one, Prod.mk.injEq]
  exact ⟨by omega, trivial⟩

theorem mapInsert_replace (k : Nat) (v old : Node) :
    ∀ (l1 l2 : List (Nat × Node)), (∀ e ∈ l1, e.1 < k) →
      mapInsert k v (l1 ++ (k, old) :: l2) = l1 ++ (k, v) :: l2 := by
  intro l1 l2
  induction l1 with
  | nil =>
    intro _
    rw [List.nil_append, mapInsert, if_neg (by omega), if_pos rfl, List.nil_append]
  | cons e rest ih =>
    intro h
    have he := h e (List.mem_cons_self _ _)
    rw [List.cons_append, mapInsert, if_neg (by omega), if_neg (by omega), List.cons_append,
      ih (fun x hx => h x (List.mem_cons_of_mem _ hx))]

theorem rangeMap_split {α : Type} (W j : Nat) (hj : j < W) (F : Nat → α) :
    (List.range W).map F =
      (List.range j).map F ++ F j :: (List.range (W - j - 1)).map (fun k => F (j + 1 + k)) := by
  have hW : W = j + (1 + (W - j - 1)) := by omega
  conv_lhs => rw [hW]
  rw [List.range_add, List.map_append, List.map_map, List.range_add, List.map_append,
    List.map_map]
  congr 1
  rw [show List.range 1 = [0] from rfl]
  simp only [List.map_cons, List.map_nil, List.cons_append, List.nil_append]
  have hhead : (F ∘ fun x => j + x) 0 = F j := by simp
  rw [hhead]
  congr 1
  refine List.map_congr_left ?_
  intro i _
  simp only [Function.comp_apply]
  congr 1
  omega

theorem set_rangeMap {α : Type} (n : Nat) (f : Nat → α) (k : Nat) (x : α) :
    ((List.range n).map f).set k x =
      (List.range n).map (fun i => if i = k then x else f i) := by
  by_cases hk : k < n
  · refine List.ext_getElem (by simp) ?_
    intro i h1 h2
    simp only [List.length_set, List.length_map, List.length_range] at h1 h2
    rw [List.getElem_set]
    by_cases hik : k = i
    · simp [hik, h2]
    · simp only [if_neg hik, List.getElem_map, List.getElem_range]
      rw [if_neg (fun hc => hik hc.symm)]
  · rw [List.set_eq_of_length_le (by simp; omega)]
    refine List.map_congr_left ?_
    intro i hi
    rw [List.mem_range] at hi
    rw [if_neg (by omega)]

/-- The source pin state holding bit `i` of `v`: `Output(High)` for a set
bit, `Output(Low)` for a clear one. -/
def bitState (v i : Nat) : PinState := .Output ((BusValue.new_val v).sig i)

/-- The `W` source pins for value `v`, least-significant first. -/
def busSources (W v : Nat) : List PinState := (List.range W).map (bitState v)

/-- The initial pin states of `BusBuffer::new`: `W` outputs then `W` inputs. -/
def busStates (W : Nat) : List PinState :=
  List.replicate W PinState.OUTPUT ++ List.replicate W PinState.INPUT

/-- The part entry registered by `BusBuffer::new` in the round-trip graph. -/
def busPart (W : Nat) : PartEntry :=
  { updater := busBufferUpdater W, history := [], start := W, stop := 3 * W }

/-- The round-trip graph after the sources (pins `0..W`), the bus buffer
(outputs `W..2W`, inputs `2W..3W`) and the first `j` connects
`connect(i, 2W+i)`. -/
def busGraphAfter (W v j : Nat) : GraphImpl :=
  { pin_states := busSources W v ++ busStates W,
    nodes :=
      (List.range W).map
        (fun i => (i, if i < j then (⟨[i, 2 * W + i], .Error⟩ : Node) else Node.new i))
      ++ ((List.range W).map (fun k => (W + k, Node.new (W + k)))
      ++ (List.range (W - j)).map (fun k => (2 * W + j + k, Node.new (2 * W + j + k)))),
    next_node := 3 * W,
    pin_nodes := List.range (2 * W) ++ (List.range W).map (fun i => if i < j then i else 2 * W + i),
    parts := [busPart W] }

theorem mapInsert_append_of_lt (k : Nat) (v : Node) :
    ∀ l : List (Nat × Node), (∀ e ∈ l, e.1 < k) → mapInsert k v l = l ++ [(k, v)] := by
  intro l
  induction l with
  | nil => intro _; rfl
  | cons e rest ih =>
    intro h
    have he := h e (List.mem_cons_self _ _)
    rw [mapInsert, if_neg (by omega), if_neg (by omega),
      ih (fun x hx => h x (List.mem_cons_of_mem _ hx)), List.cons_append]

theorem graphImpl_mk_eq {a b c d e a' b' c' d' e'} (h1 : a = a') (h2 : b = b')
    (h3 : c = c') (h4 : d = d') (h5 : e = e') :
    GraphImpl.mk a b c d e = GraphImpl.mk a' b' c' d' e' := by
  subst h1 h2 h3 h4 h5
  rfl

theorem sources_closed (v : Nat) : ∀ W : Nat,
    (List.range W).foldl (fun g i => g.new_output ((BusValue.new_val v).sig i)) GraphImpl.new =
      { pin_states := busSources W v,
        nodes := (List.range W).map (fun i => (i, Node.new i)),
        next_node := W,
        pin_nodes := List.range W,
        parts := [] } := by
  intro W
  induction W with
  | zero => rfl
  | succ W ih =>
    have hkeys : ∀ e ∈ (List.range W).map (fun i => (i, Node.new i)), e.1 < W := by
      intro e he
      obtain ⟨i, hi, rfl⟩ := List.mem_map.mp he
      simpa using List.mem_range.mp hi
    rw [List.range_succ, List.foldl_append, ih]
    simp only [List.foldl_cons, List.foldl_nil]
    rw [GraphImpl.new_output, GraphImpl.new_pin]
    simp only [busSources, List.length_map, List.length_range]
    rw [mapInsert_append_of_lt W _ _ hkeys]
    refine graphImpl_mk_eq ?_ ?_ rfl rfl rfl
    · rw [List.range_succ, List.map_append]
      rfl
    · rw [List.map_append]
      rfl

theorem new_pins_closed : ∀ (states : List PinState) (g : GraphImpl),
    (∀ e ∈ g.nodes, e.1 < g.next_node) →
    g.new_pins states =
      { pin_states := g.pin_states ++ states,
        nodes := g.nodes ++ (List.range states.length).map
          (fun t => (g.next_node + t, Node.new (g.pin_states.length + t))),
        next_node := g.next_node + states.length,
        pin_nodes := g.pin_nodes ++ (List.range states.length).map (fun t => g.next_node + t),
        parts := g.parts } := by
  intro states
  induction states with
  | nil =>
    intro g _
    cases g
    simp [GraphImpl.new_pins]
  | cons st rest ih =>
    intro g hlt
    have hg1 : g.new_pin st =
        { pin_states := g.pin_states ++ [st],
          nodes := g.nodes ++ [(g.next_node, Node.new g.pin_states.length)],
          next_node := g.next_node + 1,
          pin_nodes := g.pin_nodes ++ [g.next_node],
          parts := g.parts } := by
      rw [GraphImpl.new_pin, mapInsert_append_of_lt _ _ _ hlt]
    have hlt1 : ∀ e ∈ (g.new_pin st).nodes, e.1 < (g.new_pin st).next_node := by
      intro e he
      rw [hg1] at he
      simp only [List.mem_append, List.mem_singleton] at he
      rw [hg1]
      show e.1 < g.next_node + 1
      rcases he with he | he
      · have := hlt e he
        omega
      · rw [he]
        omega
    rw [GraphImpl.new_pins, List.foldl_cons, ← GraphImpl.new_pins, ih _ hlt1, hg1]
    refine graphImpl_mk_eq ?_ ?_ ?_ ?_ rfl
    · show (g.pin_states ++ [st]) ++ rest = g.pin_states ++ st :: rest
      rw [List.append_assoc]
      rfl
    · show (g.nodes ++ [(g.next_node, Node.new g.pin_states.length)])
          ++ (List.range rest.length).map
            (fun t => ((g.next_node + 1) + t, Node.new ((g.pin_states ++ [st]).length + t)))
        = g.nodes ++ (List.range (st :: rest).length).map
            (fun t => (g.next_node + t, Node.new (g.pin_states.length + t)))
      rw [List.append_assoc, List.length_cons, List.range_succ_eq_map, List.map_cons,
        List.map_map]
      simp only [Nat.add_zero, List.singleton_append, List.length_append,
        List.length_singleton]
      congr 1
      congr 1
      refine List.map_congr_left ?_
      intro t _
      simp only [Function.comp_apply, Nat.succ_eq_add_one, Prod.mk.injEq]
      refine ⟨by omega, ?_⟩
      congr 1
      omega
    · show (g.next_node + 1) + rest.length = g.next_node + (st :: rest).length
      simp only [List.length_cons]
      omega
    · show (g.pin_nodes ++ [g.next_node])
          ++ (List.range rest.length).map (fun t => (g.next_node + 1) + t)
        = g.pin_nodes ++ (List.range (st :: rest).length).map (fun t => g.next_node + t)
      rw [List.append_assoc, List.length_cons, List.range_succ_eq_map, List.map_cons,
        List.map_map]
      simp only [Nat.add_zero, List.singleton_append]
      congr 1
      congr 1
      refine List.map_congr_left ?_
      intro t _
      simp only [Function.comp_apply, Nat.succ_eq_add_one]
      omega

theorem busGraph_build0 (W v : Nat) :
    BusBuffer.new
      ((List.range W).foldl (fun g i => g.new_output ((BusValue.new_val v).sig i)) GraphImpl.new)
      W = busGraphAfter W v 0 := by
  rw [sources_closed v W, BusBuffer.new, GraphImpl.new_part]
  rw [new_pins_closed _ _ (by
    intro e he
    obtain ⟨i, hi, rfl⟩ := List.mem_map.mp he
    simpa using List.mem_range.mp hi)]
  simp only [busGraphAfter, busSources, busStates, List.length_map, List.length_range,
    List.length_append, List.length_replicate]
  refine graphImpl_mk_eq rfl ?_ (by ring) ?_ ?_
  · congr 1
    rw [List.range_add, List.map_append, List.map_map]
    congr 1
    simp only [Nat.sub_zero, Nat.add_zero]
    refine List.map_congr_left ?_
    intro k _
    simp only [Function.comp_apply, Prod.mk.injEq]
    refine ⟨by omega, ?_⟩
    congr 1
    omega
  · have h1 : (List.range W).map (fun i => if i < 0 then i else 2 * W + i)
        = (List.range W).map (fun i => 2 * W + i) := by
      refine List.map_congr_left ?_
      intro i _
      rw [if_neg (by omega)]
    rw [h1, ← List.range_add, ← List.range_add,
      show W + (W + W) = 2 * W + W from by ring]
  · rw [busPart, show W + (W + W) = 3 * W from by ring]
    rfl

theorem listGetD_ext {α : Type} (l1 l2 : List α) (d : α) (hlen : l1.length = l2.length)
    (h : ∀ i, i < l1.length → l1.getD i d = l2.getD i d) : l1 = l2 := by
  refine List.ext_getElem hlen ?_
  intro i h1 h2
  have hi := h i h1
  rwa [List.getD_eq_getElem _ _ h1, List.getD_eq_getElem _ _ h2] at hi

theorem busGraph_connect_step (W v j : Nat) (hj : j < W) :
    (busGraphAfter W v j).connectD j (2 * W + j) = busGraphAfter W v (j + 1) := by
  have hpa : (busGraphAfter W v j).pin_nodes.getD j 0 = j := by
    show (List.range (2 * W)
        ++ (List.range W).map (fun i => if i < j then i else 2 * W + i)).getD j 0 = j
    rw [List.getD_append _ _ _ _ (by simp; omega), getD_range]
    rw [if_pos (show j < 2 * W from by omega)]
  have hpb : (busGraphAfter W v j).pin_nodes.getD (2 * W + j) 0 = 2 * W + j := by
    show (List.range (2 * W)
        ++ (List.range W).map (fun i => if i < j then i else 2 * W + i)).getD (2 * W + j) 0
      = 2 * W + j
    rw [List.getD_append_right _ _ _ _ (by simp)]
    simp only [List.length_range]
    rw [show 2 * W + j - 2 * W = j from by omega, getD_rangeMap, if_pos hj, if_neg (by omega)]
  have hlookA : mapLookup (2 * W + j)
      ((List.range W).map
        (fun i => (i, if i < j then (⟨[i, 2 * W + i], .Error⟩ : Node) else Node.new i)))
      = none := by
    rw [mapLookup_rangeMap0, if_neg (by omega)]
  have hlookB : mapLookup (2 * W + j)
      ((List.range W).map (fun k => (W + k, Node.new (W + k)))) = none := by
    rw [mapLookup_rangeMap, if_neg (by omega)]
  have hlookC : mapLookup (2 * W + j)
      ((List.range (W - j)).map (fun k => (2 * W + j + k, Node.new (2 * W + j + k))))
      = some (Node.new (2 * W + j)) := by
    rw [mapLookup_rangeMap, if_pos (by omega)]
    rw [show 2 * W + j - (2 * W + j) = 0 from by omega]
    rw [show 2 * W + j + 0 = 2 * W + j from by omega]
  have hlookb : mapLookup (2 * W + j) (busGraphAfter W v j).nodes
      = some (Node.new (2 * W + j)) := by
    show mapLookup (2 * W + j) (_ ++ (_ ++ _)) = _
    rw [mapLookup_append_of_none _ _ _ hlookA, mapLookup_append_of_none _ _ _ hlookB, hlookC]
  have heraseC : mapErase (2 * W + j)
      ((List.range (W - j)).map (fun k => (2 * W + j + k, Node.new (2 * W + j + k))))
      = (List.range (W - (j + 1))).map
          (fun k => (2 * W + (j + 1) + k, Node.new (2 * W + (j + 1) + k))) := by
    rw [show W - j = (W - (j + 1)) + 1 from by omega,
      mapErase_rangeMap_head (fun k => Node.new (2 * W + j + k)) (W - (j + 1)) (2 * W + j)]
    refine List.map_congr_left ?_
    intro k _
    simp only [Prod.mk.injEq]
    refine ⟨by omega, ?_⟩
    congr 1
    omega
  have herase : mapErase (2 * W + j) (busGraphAfter W v j).nodes
      = (List.range W).map
          (fun i => (i, if i < j then (⟨[i, 2 * W + i], .Error⟩ : Node) else Node.new i))
        ++ ((List.range W).map (fun k => (W + k, Node.new (W + k)))
        ++ (List.range (W - (j + 1))).map
            (fun k => (2 * W + (j + 1) + k, Node.new (2 * W + (j + 1) + k)))) := by
    show mapErase (2 * W + j) (_ ++ (_ ++ _)) = _
    rw [mapErase_append_of_none _ _ _ hlookA, mapErase_append_of_none _ _ _ hlookB, heraseC]
  have hlooka : mapLookup j
      ((List.range W).map
        (fun i => (i, if i < j then (⟨[i, 2 * W + i], .Error⟩ : Node) else Node.new i))
        ++ ((List.range W).map (fun k => (W + k, Node.new (W + k)))
        ++ (List.range (W - (j + 1))).map
            (fun k => (2 * W + (j + 1) + k, Node.new (2 * W + (j + 1) + k)))))
      = some (Node.new j) := by
    refine mapLookup_append_of_some _ _ _ _ ?_
    rw [mapLookup_rangeMap0, if_pos hj, if_neg (by omega)]
  have hsetIns : setInsert (2 * W + j) [j] = [j, 2 * W + j] := by
    rw [setInsert, if_neg (by omega), if_neg (by omega)]
    rfl
  have hmerge : (Node.new (2 * W + j)).pin_ids.foldl (fun s p => setInsert p s)
      (Node.new j).pin_ids = [j, 2 * W + j] := by
    show List.foldl _ [j] [2 * W + j] = _
    rw [List.foldl_cons, List.foldl_nil, hsetIns]
  have hins : mapInsert j (⟨[j, 2 * W + j], .Error⟩ : Node)
      ((List.range W).map
        (fun i => (i, if i < j then (⟨[i, 2 * W + i], .Error⟩ : Node) else Node.new i))
        ++ ((List.range W).map (fun k => (W + k, Node.new (W + k)))
        ++ (List.range (W - (j + 1))).map
            (fun k => (2 * W + (j + 1) + k, Node.new (2 * W + (j + 1) + k)))))
      = (List.range W).map
          (fun i => (i, if i < j + 1 then (⟨[i, 2 * W + i], .Error⟩ : Node) else Node.new i))
        ++ ((List.range W).map (fun k => (W + k, Node.new (W + k)))
        ++ (List.range (W - (j + 1))).map
            (fun k => (2 * W + (j + 1) + k, Node.new (2 * W + (j + 1) + k)))) := by
    rw [rangeMap_split W j hj
      (fun i => (i, if i < j then (⟨[i, 2 * W + i], .Error⟩ : Node) else Node.new i))]
    rw [rangeMap_split W j hj
      (fun i => (i, if i < j + 1 then (⟨[i, 2 * W + i], .Error⟩ : Node) else Node.new i))]
    rw [if_neg (by omega), if_pos (by omega)]
    rw [List.append_assoc, List.append_assoc, List.cons_append, List.cons_append]
    rw [mapInsert_replace j _ _ _ _ ?hkeys]
    case hkeys =>
      intro e he
      obtain ⟨i, hi, rfl⟩ := List.mem_map.mp he
      simpa using List.mem_range.mp hi
    congr 1
    · refine List.map_congr_left ?_
      intro i hi
      rw [List.mem_range] at hi
      rw [if_pos (by omega), if_pos (by omega)]
    · congr 2
      refine List.map_congr_left ?_
      intro k _
      rw [if_neg (by omega), if_neg (by omega)]
  have hpn : ((List.range (2 * W)
        ++ (List.range W).map (fun i => if i < j then i else 2 * W + i)).set (2 * W + j) j)
      = List.range (2 * W)
        ++ (List.range W).map (fun i => if i < j + 1 then i else 2 * W + i) := by
    refine listGetD_ext _ _ 0 (by simp) ?_
    intro q hq
    simp only [List.length_set, List.length_append, List.length_map, List.length_range] at hq
    rw [getD_set]
    by_cases hqj : q = 2 * W + j
    · subst hqj
      rw [if_pos ⟨rfl, by simp; omega⟩]
      rw [List.getD_append_right _ _ _ _ (by simp)]
      simp only [List.length_range]
      rw [show 2 * W + j - 2 * W = j from by omega, getD_rangeMap, if_pos hj]
      rw [if_pos (show j < j + 1 from by omega)]
    · rw [if_neg (fun hc => hqj hc.1.symm)]
      by_cases hq2 : q < 2 * W
      · rw [List.getD_append _ _ _ _ (by simp; omega), List.getD_append _ _ _ _ (by simp; omega)]
      · rw [List.getD_append_right _ _ _ _ (by simp; omega),
          List.getD_append_right _ _ _ _ (by simp; omega)]
        simp only [List.length_range]
        rw [getD_rangeMap, getD_rangeMap]
        by_cases hq3 : q - 2 * W < W
        · rw [if_pos hq3, if_pos hq3]
          by_cases hlt : q - 2 * W < j
          · rw [if_pos hlt, if_pos (show q - 2 * W < j + 1 from by omega)]
          · rw [if_neg hlt, if_neg (show ¬(q - 2 * W < j + 1) from by omega)]
        · rw [if_neg hq3, if_neg hq3]
  have hfold : List.foldl (fun s p => setInsert p s) [j] [2 * W + j] = [j, 2 * W + j] := by
    rw [List.foldl_cons, List.foldl_nil, hsetIns]
  have hne : ¬ (j = 2 * W + j) := by omega
  have hpins : ∀ x : Nat, (Node.new x).pin_ids = [x] := fun x => rfl
  have hsig : ∀ x : Nat, (Node.new x).signal = .Error := fun x => rfl
  have hconn : (busGraphAfter W v j).connect j (2 * W + j)
      = some (busGraphAfter W v (j + 1)) := by
    simp only [GraphImpl.connect, hpa, hpb, if_neg hne, hlookb, herase, hlooka, hpins, hsig,
      hfold, List.foldl_cons, List.foldl_nil, Option.some.injEq]
    refine graphImpl_mk_eq rfl ?_ rfl ?_ rfl
    · exact hins
    · exact hpn
  rw [GraphImpl.connectD, hconn]
  rfl

/-! ## C8 — tick-phase lemmas -/

theorem enumFrom_foldl_set_getD :
    ∀ (vs : List PinState) (k : Nat) (ps : List PinState) (start q : Nat),
      ((List.enumFrom k vs).foldl (fun acc iv => acc.set (start + iv.1) iv.2) ps).getD q .HiZ =
        if start + k ≤ q ∧ q < start + k + vs.length ∧ q < ps.length
        then vs.getD (q - (start + k)) .HiZ else ps.getD q .HiZ := by
  intro vs
  induction vs with
  | nil =>
    intro k ps start q
    rw [if_neg (by simp; omega)]
    rfl
  | cons v rest ih =>
    intro k ps start q
    show ((List.enumFrom (k + 1) rest).foldl _ (ps.set (start + k) v)).getD q .HiZ = _
    rw [ih (k + 1) (ps.set (start + k) v) start q, List.length_set, getD_set]
    by_cases h1 : start + (k + 1) ≤ q ∧ q < start + (k + 1) + rest.length ∧ q < ps.length
    · rw [if_pos h1, if_pos (by simp only [List.length_cons]; omega)]
      rw [show q - (start + k) = (q - (start + (k + 1))) + 1 from by omega, List.getD_cons_succ]
    · rw [if_neg h1]
      by_cases h2 : start + k = q ∧ start + k < ps.length
      · rw [if_pos h2, if_pos (by simp only [List.length_cons]; omega)]
        rw [show q - (start + k) = 0 from by omega, List.getD_cons_zero]
      · rw [if_neg h2, if_neg (by simp only [List.length_cons]; omega)]

theorem writeSlice_getD (ps : List PinState) (start : Nat) (vals : List PinState) (q : Nat) :
    (writeSlice ps start vals).getD q .HiZ =
      if start ≤ q ∧ q < start + vals.length ∧ q < ps.length
      then vals.getD (q - start) .HiZ else ps.getD q .HiZ := by
  have h := enumFrom_foldl_set_getD vals 0 ps start q
  simp only [Nat.add_zero] at h
  exact h

theorem writeSlice_append_exact (A B vals : List PinState) (n : Nat) (hA : A.length = n)
    (h : vals.length = B.length) : writeSlice (A ++ B) n vals = A ++ vals := by
  refine listGetD_ext _ _ .HiZ ?_ ?_
  · rw [writeSlice_length]
    simp [h]
  · intro q hq
    rw [writeSlice_length] at hq
    rw [writeSlice_getD]
    simp only [List.length_append] at hq ⊢
    by_cases h1 : q < n
    · rw [if_neg (by omega), List.getD_append _ _ _ _ (by omega),
        List.getD_append _ _ _ _ (by omega)]
    · rw [if_pos ⟨by omega, by omega, by omega⟩,
        List.getD_append_right _ _ _ _ (by omega), hA]

theorem zip_replicate_left {α β : Type} (a : α) :
    ∀ (l : List β) (n : Nat), l.length = n →
      (List.replicate n a).zip l = l.map (fun x => (a, x)) := by
  intro l
  induction l with
  | nil => intro n h; subst h; rfl
  | cons x xs ih =>
    intro n h
    subst h
    show (List.replicate (xs.length + 1) a).zip (x :: xs) = _
    rw [List.replicate_succ, List.zip_cons_cons, ih xs.length rfl, List.map_cons]

theorem update_parts_single (g : GraphImpl) (pe : PartEntry) (h : g.parts = [pe]) :
    g.update_parts = { g with
      pin_states := writeSlice g.pin_states pe.start
        ((pe.updater pe.history ((g.pin_states.drop pe.start).take (pe.stop - pe.start))).take
          (pe.stop - pe.start)),
      parts := [{ pe with
        history := pe.history ++ [(g.pin_states.drop pe.start).take (pe.stop - pe.start)] }] } := by
  unfold GraphImpl.update_parts
  rw [h]
  rfl

theorem updateNodesGo_preserves_nonInput :
    ∀ (nodes : List (Nat × Node)) (ps : List PinState) (c p : Nat),
      isInput (ps.getD p .HiZ) = false →
      (updateNodesGo nodes ps c).2.1.getD p .HiZ = ps.getD p .HiZ := by
  intro nodes
  induction nodes with
  | nil => intro ps c p _; rfl
  | cons e rest ih =>
    intro ps c p hp
    obtain ⟨id, nd⟩ := e
    rw [updateNodesGo]
    split
    · have h1 : (writeInputs ps nd.pin_ids (resolveNode ps nd)).getD p .HiZ
          = ps.getD p .HiZ := by
        rw [writeInputs_getD, if_neg (by rw [hp]; simp)]
      rw [ih _ _ p (by rw [h1, hp]), h1]
    · exact ih ps c p hp

theorem resolveNode_congr (ps ps' : List PinState) (nd : Node)
    (h : ∀ p ∈ nd.pin_ids, ps'.getD p .HiZ = ps.getD p .HiZ) :
    resolveNode ps' nd = resolveNode ps nd := by
  unfold resolveNode
  have hgen : ∀ (pins : List Nat) (acc : Signal × Nat),
      (∀ p ∈ pins, ps'.getD p .HiZ = ps.getD p .HiZ) →
      pins.foldl (resolveStep ps') acc = pins.foldl (resolveStep ps) acc := by
    intro pins
    induction pins with
    | nil => intro acc _; rfl
    | cons q rest ihq =>
      intro acc hq
      rw [List.foldl_cons, List.foldl_cons]
      have hstep : resolveStep ps' acc q = resolveStep ps acc q := by
        unfold resolveStep
        rw [hq q (List.mem_cons_self _ _)]
      rw [hstep, ihq _ (fun p hp => hq p (List.mem_cons_of_mem _ hp))]
  rw [hgen nd.pin_ids (nd.signal, 0) h]

theorem updateNodesGo_getD_mem :
    ∀ (nodes : List (Nat × Node)) (ps : List PinState) (c : Nat),
      NodesDisjoint nodes →
      ∀ (j p : Nat), j < nodes.length → p ∈ (nodes.getD j dNode).2.pin_ids →
        (updateNodesGo nodes ps c).2.1.getD p .HiZ =
          (if resolveNode ps (nodes.getD j dNode).2 ≠ (nodes.getD j dNode).2.signal
              ∧ isInput (ps.getD p .HiZ) = true
           then .Input (resolveNode ps (nodes.getD j dNode).2)
           else ps.getD p .HiZ) := by
  intro nodes
  induction nodes with
  | nil =>
    intro ps c _ j p hj
    simp at hj
  | cons e rest ih =>
    intro ps c hdisj j p hj hp
    obtain ⟨id, nd⟩ := e
    unfold NodesDisjoint at hdisj
    rw [List.pairwise_cons] at hdisj
    cases j with
    | zero =>
      simp only [List.getD_cons_zero] at hp ⊢
      rw [updateNodesGo]
      split
      · rename_i hch
        have hout : ∀ e ∈ rest, p ∉ e.2.pin_ids := fun e he => hdisj.1 e he p hp
        rw [updateNodesGo_frame rest _ _ p hout, writeInputs_getD]
        by_cases hin : isInput (ps.getD p .HiZ)
        · rw [if_pos ⟨hp, hin⟩, if_pos ⟨hch, hin⟩]
        · rw [if_neg (fun hc => hin hc.2), if_neg (fun hc => hin hc.2)]
      · rename_i hch
        rw [if_neg (by simp at hch ⊢; simp [hch])]
        have hout : ∀ e ∈ rest, p ∉ e.2.pin_ids := fun e he => hdisj.1 e he p hp
        exact updateNodesGo_frame rest _ _ p hout
    | succ n =>
      simp only [List.getD_cons_succ, List.length_cons] at hp hj ⊢
      have hnmem : (rest.getD n dNode) ∈ rest := by
        rw [List.getD_eq_getElem _ _ (by omega)]
        exact List.getElem_mem _
      have hdisjn : ∀ q ∈ (rest.getD n dNode).2.pin_ids, q ∉ nd.pin_ids := by
        intro q hq hq2
        exact hdisj.1 _ hnmem q hq2 hq
      rw [updateNodesGo]
      split
      · have hagree : ∀ q ∈ (rest.getD n dNode).2.pin_ids,
            (writeInputs ps nd.pin_ids (resolveNode ps nd)).getD q .HiZ = ps.getD q .HiZ := by
          intro q hq
          rw [writeInputs_getD, if_neg (by
            intro hc
            exact hdisjn q hq hc.1)]
        rw [ih _ _ hdisj.2 n p (by omega) hp]
        rw [resolveNode_congr ps _ _ hagree, hagree p hp]
      · rw [ih _ _ hdisj.2 n p (by omega) hp]

theorem busNodes_final (W v : Nat) :
    (busGraphAfter W v W).nodes
      = (List.range W).map (fun i => (i, (⟨[i, 2 * W + i], .Error⟩ : Node)))
        ++ (List.range W).map (fun k => (W + k, Node.new (W + k))) := by
  show ((List.range W).map
      (fun i => (i, if i < W then (⟨[i, 2 * W + i], .Error⟩ : Node) else Node.new i)))
      ++ ((List.range W).map (fun k => (W + k, Node.new (W + k)))
      ++ (List.range (W - W)).map (fun k => (2 * W + W + k, Node.new (2 * W + W + k)))) = _
  rw [show W - W = 0 from by omega]
  simp only [List.range_zero, List.map_nil, List.append_nil]
  congr 1
  refine List.map_congr_left ?_
  intro i hi
  rw [List.mem_range] at hi
  rw [if_pos hi]

theorem busNodes_disjoint (W v : Nat) : NodesDisjoint (busGraphAfter W v W).nodes := by
  have hpA : ∀ i : Nat, ((i, (⟨[i, 2 * W + i], .Error⟩ : Node)) : Nat × Node).2.pin_ids
      = [i, 2 * W + i] := fun _ => rfl
  have hpB : ∀ i : Nat, ((W + i, Node.new (W + i)) : Nat × Node).2.pin_ids
      = [W + i] := fun _ => rfl
  rw [busNodes_final]
  unfold NodesDisjoint
  rw [List.pairwise_append]
  refine ⟨?_, ?_, ?_⟩
  · rw [List.pairwise_map]
    refine List.Pairwise.imp_of_mem ?_ (List.pairwise_lt_range W)
    intro a b ha hb hab
    rw [List.mem_range] at ha hb
    intro p hp hp2
    rw [hpA] at hp hp2
    simp only [List.mem_cons, List.not_mem_nil, or_false] at hp hp2
    rcases hp with rfl | rfl <;> rcases hp2 with h | h <;> omega
  · rw [List.pairwise_map]
    refine List.Pairwise.imp_of_mem ?_ (List.pairwise_lt_range W)
    intro a b ha hb hab
    rw [List.mem_range] at ha hb
    intro p hp hp2
    rw [hpB] at hp hp2
    simp only [List.mem_cons, List.not_mem_nil, or_false] at hp hp2
    omega
  · intro a ha b hb
    obtain ⟨i, hi, rfl⟩ := List.mem_map.mp ha
    obtain ⟨k, hk, rfl⟩ := List.mem_map.mp hb
    rw [List.mem_range] at hi hk
    intro p hp hp2
    rw [hpA] at hp
    rw [hpB] at hp2
    simp only [List.mem_cons, List.not_mem_nil, or_false] at hp hp2
    rcases hp with rfl | rfl <;> omega

theorem busTick1_parts (W v : Nat) :
    (busGraphAfter W v W).update_parts
      = { busGraphAfter W v W with
          pin_states := busSources W v
            ++ (List.replicate W (PinState.Output .Off) ++ List.replicate W PinState.INPUT),
          parts := [{ busPart W with history := [busStates W] }] } := by
  have hslice : ((busSources W v ++ busStates W).drop (busPart W).start).take
      ((busPart W).stop - (busPart W).start) = busStates W := by
    show ((busSources W v ++ busStates W).drop W).take (3 * W - W) = _
    rw [List.drop_left' (by simp [busSources])]
    exact List.take_of_length_le (by simp [busStates]; omega)
  have hupd : busBufferUpdater W [] (busStates W)
      = List.replicate W (PinState.Output .Off) ++ List.replicate W PinState.INPUT := by
    show (((busStates W).take W).zip ((busStates W).drop W)).map
        (fun qa =>
          match qa.2 with
          | PinState.HiZ => PinState.HiZ
          | PinState.Input s => PinState.Output s
          | _ => PinState.Output Signal.Error) ++ (busStates W).drop W = _
    rw [show (busStates W).take W = List.replicate W PinState.OUTPUT from
        List.take_left' (by simp [busStates]),
      show (busStates W).drop W = List.replicate W PinState.INPUT from
        List.drop_left' (by simp [busStates])]
    rw [zip_replicate_left PinState.OUTPUT (List.replicate W PinState.INPUT) W (by simp),
      List.map_map, List.map_replicate]
    rfl
  have hps0 : (busGraphAfter W v W).pin_states = busSources W v ++ busStates W := rfl
  rw [update_parts_single _ (busPart W) rfl]
  rw [hps0]
  rw [hslice]
  rw [show (busPart W).updater = busBufferUpdater W from rfl,
    show (busPart W).history = ([] : List (List PinState)) from rfl]
  rw [hupd]
  rw [List.take_of_length_le (by simp [busPart]; omega)]
  rw [show (busPart W).start = W from rfl]
  rw [writeSlice_append_exact (busSources W v) (busStates W) _ W (by simp [busSources])
    (by simp [busStates])]
  rfl

/-- The resolved bit signals are never `Error`. -/
theorem newval_sig_ne_error (v i : Nat) : (BusValue.new_val v).sig i ≠ .Error := by
  unfold BusValue.sig BusValue.new_val
  simp only [Nat.zero_shiftRight, Nat.zero_and]
  rw [if_neg (by omega)]
  split <;> simp

theorem busTick1 (W v : Nat) :
    (GraphImpl.tick (busGraphAfter W v W)).1.pin_states
      = busSources W v ++ (List.replicate W (PinState.Output .Off)
        ++ (List.range W).map (fun i => PinState.Input ((BusValue.new_val v).sig i))) := by
  have htick : (GraphImpl.tick (busGraphAfter W v W)).1.pin_states
      = (updateNodesGo (busGraphAfter W v W).nodes
          (busSources W v ++ (List.replicate W (PinState.Output .Off)
            ++ List.replicate W PinState.INPUT)) 0).2.1 := by
    show ((busGraphAfter W v W).update_parts.update_nodes).1.pin_states = _
    rw [busTick1_parts]
    rfl
  set psMid := busSources W v ++ (List.replicate W (PinState.Output .Off)
    ++ List.replicate W PinState.INPUT) with hpsMid
  have hlenS : (busSources W v).length = W := by simp [busSources]
  have hlenMid : psMid.length = W + (W + W) := by
    rw [hpsMid]
    simp [busSources]
  have hq1 : ∀ i, i < W → psMid.getD i .HiZ = .Output ((BusValue.new_val v).sig i) := by
    intro i hi
    rw [hpsMid, List.getD_append _ _ _ _ (by rw [hlenS]; omega)]
    show (busSources W v).getD i .HiZ = _
    rw [busSources, getD_rangeMap, if_pos hi]
    rfl
  have hq2 : ∀ k, k < W → psMid.getD (W + k) .HiZ = .Output .Off := by
    intro k hk
    rw [hpsMid, List.getD_append_right _ _ _ _ (by rw [hlenS]; omega), hlenS]
    rw [show W + k - W = k from by omega,
      List.getD_append _ _ _ _ (by simp; omega), getD_replicate, if_pos hk]
  have hq3 : ∀ i, i < W → psMid.getD (2 * W + i) .HiZ = PinState.INPUT := by
    intro i hi
    rw [hpsMid, List.getD_append_right _ _ _ _ (by rw [hlenS]; omega), hlenS]
    rw [List.getD_append_right _ _ _ _ (by simp; omega)]
    simp only [List.length_replicate]
    rw [getD_replicate, if_pos (by omega)]
  have hres1 : ∀ i, i < W →
      resolveNode psMid ⟨[i, 2 * W + i], .Error⟩ = (BusValue.new_val v).sig i := by
    intro i hi
    unfold resolveNode
    rw [List.foldl_cons]
    rw [show resolveStep psMid (Signal.Error, 0) i = ((BusValue.new_val v).sig i, 1) from by
      unfold resolveStep
      rw [hq1 i hi]
      rfl]
    rw [List.foldl_cons]
    rw [show resolveStep psMid ((BusValue.new_val v).sig i, 1) (2 * W + i)
        = ((BusValue.new_val v).sig i, 1) from by
      unfold resolveStep
      rw [hq3 i hi]
      rfl]
    rfl
  have hres2 : ∀ k, k < W → resolveNode psMid (Node.new (W + k)) = .Off := by
    intro k hk
    unfold resolveNode
    rw [show (Node.new (W + k)).pin_ids = [W + k] from rfl,
      show (Node.new (W + k)).signal = Signal.Error from rfl]
    rw [List.foldl_cons]
    rw [show resolveStep psMid (Signal.Error, 0) (W + k) = (Signal.Off, 1) from by
      unfold resolveStep
      rw [hq2 k hk]
      rfl]
    rfl
  have hdisj := busNodes_disjoint W v
  have hnlen : (busGraphAfter W v W).nodes.length = W + W := by
    rw [busNodes_final]
    simp
  refine listGetD_ext _ _ .HiZ ?_ ?_
  · rw [htick, (updateNodesGo_shape _ _ _).2, hlenMid]
    simp [busSources]
  · intro q hq
    rw [htick, (updateNodesGo_shape _ _ _).2, hlenMid] at hq
    rw [htick]
    by_cases hA : q < W
    · have hnode : ((busGraphAfter W v W).nodes.getD q dNode).2
          = ⟨[q, 2 * W + q], .Error⟩ := by
        rw [busNodes_final, List.getD_append _ _ _ _ (by simp; omega), getD_rangeMap,
          if_pos hA]
      have hmem : q ∈ ((busGraphAfter W v W).nodes.getD q dNode).2.pin_ids := by
        rw [hnode]
        simp
      rw [updateNodesGo_getD_mem _ _ _ hdisj q q (by omega) hmem, hnode]
      rw [if_neg (by
        intro hc
        rw [hq1 q hA] at hc
        simp [isInput] at hc)]
      rw [hq1 q hA, List.getD_append _ _ _ _ (by rw [hlenS]; omega)]
      rw [busSources, getD_rangeMap, if_pos hA]
      rfl
    · by_cases hB : q < 2 * W
      · have hWq : W + (q - W) = q := by omega
        have hnode : ((busGraphAfter W v W).nodes.getD (W + (q - W)) dNode).2
            = Node.new q := by
          rw [busNodes_final, List.getD_append_right _ _ _ _ (by simp)]
          simp only [List.length_map, List.length_range]
          rw [show W + (q - W) - W = q - W from by omega, getD_rangeMap,
            if_pos (by omega)]
          show Node.new (W + (q - W)) = _
          rw [hWq]
        have hmem : q ∈ ((busGraphAfter W v W).nodes.getD (W + (q - W)) dNode).2.pin_ids := by
          rw [hnode]
          simp [Node.new]
        have h2 := hq2 (q - W) (by omega)
        rw [hWq] at h2
        have hr := hres2 (q - W) (by omega)
        rw [hWq] at hr
        rw [updateNodesGo_getD_mem _ _ _ hdisj (W + (q - W)) q (by omega) hmem, hnode]
        rw [if_neg (by
          intro hc
          rw [h2] at hc
          simp [isInput] at hc)]
        rw [h2]
        rw [List.getD_append_right _ _ _ _ (by rw [hlenS]; omega), hlenS]
        rw [List.getD_append _ _ _ _ (by simp; omega), getD_replicate, if_pos (by omega)]
      · have h2q : 2 * W + (q - 2 * W) = q := by omega
        have hnode : ((busGraphAfter W v W).nodes.getD (q - 2 * W) dNode).2
            = ⟨[q - 2 * W, q], .Error⟩ := by
          rw [busNodes_final, List.getD_append _ _ _ _ (by simp; omega), getD_rangeMap,
            if_pos (show q - 2 * W < W from by omega)]
          show (⟨[q - 2 * W, 2 * W + (q - 2 * W)], .Error⟩ : Node) = _
          rw [h2q]
        have hmem : q ∈ ((busGraphAfter W v W).nodes.getD (q - 2 * W) dNode).2.pin_ids := by
          rw [hnode]
          simp
        have hr := hres1 (q - 2 * W) (by omega)
        rw [h2q] at hr
        have h3 := hq3 (q - 2 * W) (by omega)
        rw [h2q] at h3
        rw [updateNodesGo_getD_mem _ _ _ hdisj (q - 2 * W) q (by omega) hmem, hnode, hr]
        rw [if_pos ⟨newval_sig_ne_error v (q - 2 * W), by rw [h3]; rfl⟩]
        rw [List.getD_append_right _ _ _ _ (by rw [hlenS]; omega), hlenS]
        rw [List.getD_append_right _ _ _ _ (by simp; omega)]
        simp only [List.length_replicate]
        rw [getD_rangeMap, if_pos (by omega)]
        rw [show q - W - W = q - 2 * W from by omega]

theorem busGraph_fold (W v : Nat) : ∀ j, j ≤ W →
    (List.range j).foldl (fun g i => g.connectD i (2 * W + i)) (busGraphAfter W v 0)
      = busGraphAfter W v j := by
  intro j
  induction j with
  | zero => intro _; rfl
  | succ n ih =>
    intro h
    rw [List.range_succ, List.foldl_append, ih (by omega), List.foldl_cons, List.foldl_nil]
    exact busGraph_connect_step W v n (by omega)

/-- The full bus round-trip graph built through the modelled builder API:
`W` source output pins holding the bits of `v`, a width-`W` `BusBuffer`,
and `connect(i, 2W + i)` wiring each source to the matching buffer input. -/
def busRoundTripGraph (W v : Nat) : GraphImpl :=
  (List.range W).foldl (fun g i => g.connectD i (2 * W + i))
    (BusBuffer.new
      ((List.range W).foldl (fun g i => g.new_output ((BusValue.new_val v).sig i))
        GraphImpl.new)
      W)

theorem busRoundTripGraph_closed (W v : Nat) :
    busRoundTripGraph W v = busGraphAfter W v W := by
  rw [busRoundTripGraph, busGraph_build0, busGraph_fold W v W le_rfl]

theorem busTick1_partlist (W v : Nat) :
    (GraphImpl.tick (busGraphAfter W v W)).1.parts
      = [{ busPart W with history := [busStates W] }] := by
  show ((busGraphAfter W v W).update_parts.update_nodes).1.parts = _
  rw [busTick1_parts]
  rfl

theorem busTick2_states (W v i : Nat) (hi : i < W) :
    (GraphImpl.tick (GraphImpl.tick (busGraphAfter W v W)).1).1.get_state (W + i)
      = PinState.Output ((BusValue.new_val v).sig i) := by
  have hps1 := busTick1 W v
  have hparts1 := busTick1_partlist W v
  set g1 := (GraphImpl.tick (busGraphAfter W v W)).1 with hg1
  have hslice2 : (g1.pin_states.drop W).take (3 * W - W)
      = List.replicate W (PinState.Output .Off)
        ++ (List.range W).map (fun j => PinState.Input ((BusValue.new_val v).sig j)) := by
    rw [hps1, List.drop_left' (by simp [busSources])]
    exact List.take_of_length_le (by simp; omega)
  have hupd2 : busBufferUpdater W [busStates W]
      (List.replicate W (PinState.Output .Off)
        ++ (List.range W).map (fun j => PinState.Input ((BusValue.new_val v).sig j)))
      = (List.range W).map (fun j => PinState.Output ((BusValue.new_val v).sig j))
        ++ (List.range W).map (fun j => PinState.Input ((BusValue.new_val v).sig j)) := by
    show (((List.replicate W (PinState.Output .Off)
        ++ (List.range W).map (fun j => PinState.Input ((BusValue.new_val v).sig j))).take
          W).zip
        ((List.replicate W (PinState.Output .Off)
        ++ (List.range W).map (fun j => PinState.Input ((BusValue.new_val v).sig j))).drop
          W)).map
        (fun qa =>
          match qa.2 with
          | PinState.HiZ => PinState.HiZ
          | PinState.Input s => PinState.Output s
          | _ => PinState.Output Signal.Error)
      ++ (List.replicate W (PinState.Output .Off)
        ++ (List.range W).map (fun j => PinState.Input ((BusValue.new_val v).sig j))).drop W
      = _
    rw [List.take_left' (by simp), List.drop_left' (by simp)]
    rw [zip_replicate_left (PinState.Output .Off)
      ((List.range W).map (fun j => PinState.Input ((BusValue.new_val v).sig j))) W (by simp)]
    rw [List.map_map, List.map_map]
    rfl
  have hmid : g1.update_parts.pin_states
      = busSources W v
        ++ ((List.range W).map (fun j => PinState.Output ((BusValue.new_val v).sig j))
          ++ (List.range W).map (fun j => PinState.Input ((BusValue.new_val v).sig j))) := by
    rw [update_parts_single g1 _ hparts1]
    show writeSlice g1.pin_states W
        ((busBufferUpdater W [busStates W] ((g1.pin_states.drop W).take (3 * W - W))).take
          (3 * W - W)) = _
    rw [hslice2, hupd2]
    rw [List.take_of_length_le (by simp; omega)]
    rw [hps1]
    rw [writeSlice_append_exact (busSources W v) _ _ W (by simp [busSources]) (by simp)]
  have hgetD : g1.update_parts.pin_states.getD (W + i) .HiZ
      = PinState.Output ((BusValue.new_val v).sig i) := by
    rw [hmid, List.getD_append_right _ _ _ _ (by simp [busSources])]
    simp only [busSources, List.length_map, List.length_range]
    rw [show W + i - W = i from by omega,
      List.getD_append _ _ _ _ (by simp; omega), getD_rangeMap, if_pos hi]
  show g1.update_parts.update_nodes.1.pin_states.getD (W + i) .HiZ = _
  rw [show g1.update_parts.update_nodes.1.pin_states
      = (updateNodesGo g1.update_parts.nodes g1.update_parts.pin_states 0).2.1 from rfl]
  rw [updateNodesGo_preserves_nonInput _ _ 0 (W + i) (by rw [hgetD]; rfl)]
  exact hgetD

theorem valFrom_bound (l : List Signal) :
    (valFrom 0 l).val < 2 ^ l.length ∧ (valFrom 0 l).error < 2 ^ l.length := by
  induction l with
  | nil => simp [valFrom]
  | cons s rest ih =>
    obtain ⟨ihv, ihe⟩ := ih
    have h1 := sigval_val_le s
    have h2 := sigval_error_le s
    rw [valFrom, valFrom_succ]
    simp only [List.length_cons, pow_succ, Nat.shiftLeft_zero]
    constructor <;> omega

/-- Reading back the bit pattern of `v < 2^W` through `ToValue`
reconstructs exactly `BusValue::new_val v`. -/
theorem listVal_newval_bits (W v : Nat) (hv : v < 2 ^ W) :
    listVal ((List.range W).map (fun i => (BusValue.new_val v).sig i))
      = BusValue.new_val v := by
  set l := (List.range W).map (fun i => (BusValue.new_val v).sig i) with hl
  have hlen : l.length = W := by simp [hl]
  have hget : ∀ i, i < W → l.getD i .Off = (BusValue.new_val v).sig i := by
    intro i hi
    rw [hl, getD_rangeMap, if_pos hi]
  have hbound := valFrom_bound l
  rw [listVal_eq_valFrom]
  have hval : (valFrom 0 l).val = v := by
    refine Nat.eq_of_testBit_eq ?_
    intro i
    rw [Nat.testBit_to_div_mod, Nat.testBit_to_div_mod]
    by_cases hi : i < W
    · have hb := valFrom_val_bit l i (by rw [hlen]; exact hi)
      rw [Nat.shiftRight_eq_div_pow] at hb
      rw [hb, hget i hi]
      have hsig : BusValue.sig (BusValue.new_val v) i
          = if v / 2 ^ i % 2 = 1 then Signal.High else Signal.Low := by
        unfold BusValue.sig BusValue.new_val
        simp only [Nat.zero_shiftRight, Nat.zero_and]
        rw [if_neg (by omega), Nat.and_one_is_mod, Nat.shiftRight_eq_div_pow]
      rw [hsig]
      by_cases h2 : v / 2 ^ i % 2 = 1
      · rw [if_pos h2]
        simp [h2]
      · rw [if_neg h2]
        simp [h2]
    · have hA : (valFrom 0 l).val / 2 ^ i = 0 :=
        Nat.div_eq_of_lt (lt_of_lt_of_le (hlen ▸ hbound.1)
          (Nat.pow_le_pow_right (by omega) (by omega)))
      have hB : v / 2 ^ i = 0 :=
        Nat.div_eq_of_lt (lt_of_lt_of_le hv (Nat.pow_le_pow_right (by omega) (by omega)))
      rw [hA, hB]
  have herr : (valFrom 0 l).error = 0 := by
    refine Nat.eq_of_testBit_eq ?_
    intro i
    rw [Nat.testBit_to_div_mod, Nat.testBit_to_div_mod]
    by_cases hi : i < W
    · have hb := valFrom_error_bit l i (by rw [hlen]; exact hi)
      rw [Nat.shiftRight_eq_div_pow] at hb
      rw [hb, hget i hi, if_neg (newval_sig_ne_error v i)]
      simp
    · have hA : (valFrom 0 l).error / 2 ^ i = 0 :=
        Nat.div_eq_of_lt (lt_of_lt_of_le (hlen ▸ hbound.2)
          (Nat.pow_le_pow_right (by omega) (by omega)))
      rw [hA]
      simp
  rw [show valFrom 0 l = (⟨(valFrom 0 l).val, (valFrom 0 l).error⟩ : BusValue) from rfl,
    hval, herr]
  rfl

/-- The spec's one-tick round trip fails at width 1 with `v = 1`: after a
single tick the buffer's output pin still reads the initial `Off` level, so
the bus reads back `0`, not `1`. -/
theorem bus_round_trip_one_tick_counterexample :
    listVal ((List.range 1).map
        (fun i => (GraphImpl.tick (busRoundTripGraph 1 1)).1.get_signal (1 + i)))
      ≠ BusValue.new_val 1 := by decide

/-- **C8** (amended): for every `v < 2^W`, creating `W` source pins in
`Output` state holding the bit pattern of `v` (least-significant first),
connecting them to the `W` inputs of a width-`W` bus buffer, and performing
**two** ticks (one to latch the inputs, one for the buffer to drive its
outputs) makes reading the buffer's `W` output pins as a bus yield
`BusValue { val := v, error := 0 }`; a single tick does not suffice. -/
theorem bus_round_trip (W v : Nat) (hv : v < 2 ^ W) :
    listVal ((List.range W).map (fun i =>
      (GraphImpl.tick (GraphImpl.tick (busRoundTripGraph W v)).1).1.get_signal (W + i)))
      = BusValue.new_val v := by
  rw [busRoundTripGraph_closed]
  have hsig : ∀ i ∈ List.range W,
      (GraphImpl.tick (GraphImpl.tick (busGraphAfter W v W)).1).1.get_signal (W + i)
        = (BusValue.new_val v).sig i := by
    intro i hi
    rw [List.mem_range] at hi
    show ((GraphImpl.tick (GraphImpl.tick (busGraphAfter W v W)).1).1.get_state (W + i)).sig
      = _
    rw [busTick2_states W v i hi]
    rfl
  rw [List.map_congr_left hsig]
  exact listVal_newval_bits W v hv

/-- Witness for **C8**: the two-tick round trip of `v = 5` at width `W = 3`. -/
theorem bus_round_trip_witness :
    5 < 2 ^ 3 ∧ listVal ((List.range 3).map (fun i =>
      (GraphImpl.tick (GraphImpl.tick (busRoundTripGraph 3 5)).1).1.get_signal (3 + i)))
      = BusValue.new_val 5 :=
  ⟨by decide, bus_round_trip 3 5 (by decide)⟩

end Befrust
